import Mathlib

/-!
Shallow embedding of the toggle-block resolution engine of the
obsidian-toggle plugin (src/editor_extension.ts, second variant, and the
foldState field of src/togglePlugin.ts), together with proofs about the
block scanner, depth computation, fold-range resolution, heading scope
resolution, fold-state remapping and the render-instruction builder.

Lines are modelled as lists of characters; JavaScript string operations
(startsWith, trimStart, the regexes used by the plugin) are translated to
list operations.  Line numbers are 1-based, as in the CodeMirror API.
-/

namespace Toggle

/-- The payload of a decoration pushed by `buildDecorations`. -/
inductive DecoKind where
  | hashHide
  | lineStyle (safeLevel : Int) (roundTop roundBot : Bool) (headerLevel : Option Nat)
  | fenceTriangle (isFolded : Bool) (foldStart foldEnd : Nat)
  | startTriangle (isFolded : Bool) (foldStart foldEnd : Nat) (invisible : Bool)
  | endLine (pos : Nat)
  | copyBtn (startLineNo endLineNo : Nat)
deriving DecidableEq

abbrev Line := List Char

/-- The constant `START_TAG = "|> "`. -/
def START_TAG : Line := ['|', '>', ' ']

/-- The constant `END_TAG = "<|"`. -/
def END_TAG : Line := ['<', '|']

/-- three backticks, the first code-fence delimiter -/
def BT3 : Line := [Char.ofNat 96, Char.ofNat 96, Char.ofNat 96]

/-- three tildes, the second code-fence delimiter -/
def TD3 : Line := ['~', '~', '~']

/-- JavaScript `s.startsWith(p)` (first argument is the pattern). -/
def startsWith : Line → Line → Bool
  | [], _ => true
  | _ :: _, [] => false
  | p :: ps, c :: cs => p = c && startsWith ps cs

/-- JavaScript `s.trimStart()`. -/
def trimStart (l : Line) : Line := l.dropWhile (fun c => c.isWhitespace)

/-- The check `text.startsWith(START_TAG)`. -/
def isOpen (l : Line) : Bool := startsWith START_TAG l

/-- The check `text.startsWith(END_TAG)`. -/
def isClose (l : Line) : Bool := startsWith END_TAG l

/-- Line text lookup (1-based), `doc.line(i).text`; out-of-range gives `[]`. -/
def lineText (lines : List Line) : Nat → Line
  | 0 => []
  | i + 1 => lines.getD i []

/-- Offset `doc.line(i).from`: character offset of the start of line `i`
(each line is followed by one newline character). -/
def lineFrom (lines : List Line) : Nat → Nat
  | 0 => 0
  | i + 1 => (((lines.take i).map (fun l => l.length + 1)).sum)

/-- Offset `doc.line(i).to`: character offset of the end of line `i`. -/
def lineTo (lines : List Line) (i : Nat) : Nat :=
  lineFrom lines i + (lineText lines i).length

/-- An accepted toggle block `{ start, end }` recorded by the scanner. -/
structure BlockRange where
  startLine : Nat
  endLine : Nat
deriving DecidableEq

/-- The scanner state: `openStack` (top = head) and `validRanges`
(in order of acceptance). -/
structure ScanState where
  openStack : List Nat
  validRanges : List BlockRange
deriving DecidableEq

/-- One iteration of the pairing loop of `buildDecorations`
(editor_extension.ts lines 675-685): push on `START_TAG`, pop and record a
block on `END_TAG` with a non-empty stack, ignore otherwise.  Note that
this loop classifies the *untrimmed* line text. -/
def scanLine (i : Nat) (l : Line) (s : ScanState) : ScanState :=
  if isOpen l then
    { s with openStack := i :: s.openStack }
  else if isClose l then
    match s.openStack with
    | [] => s
    | st :: rest => ⟨rest, s.validRanges ++ [⟨st, i⟩]⟩
  else s

/-- Run the pairing loop over a list of lines starting at line number `i`. -/
def scanLinesFrom (i : Nat) : List Line → ScanState → ScanState
  | [], s => s
  | l :: ls, s => scanLinesFrom (i + 1) ls (scanLine i l s)

/-- The full pairing scan over a document (lines numbered from 1). -/
def scanDoc (lines : List Line) : ScanState :=
  scanLinesFrom 1 lines ⟨[], []⟩

/-- Scanner state after the first `k` lines of the document. -/
def scanPrefix (lines : List Line) (k : Nat) : ScanState :=
  scanLinesFrom 1 (lines.take k) ⟨[], []⟩

/-- Two blocks are disjoint or one strictly contains the other. -/
def laminar (r1 r2 : BlockRange) : Prop :=
  r1.endLine < r2.startLine ∨ r2.endLine < r1.startLine ∨
  (r1.startLine < r2.startLine ∧ r2.endLine < r1.endLine) ∨
  (r2.startLine < r1.startLine ∧ r1.endLine < r2.endLine)

instance (r1 r2 : BlockRange) : Decidable (laminar r1 r2) := by
  unfold laminar; infer_instance

/-- Invariant of the pairing loop after processing lines `1..k`. -/
structure ScanInv (s : ScanState) (k : Nat) : Prop where
  stack_le : ∀ t ∈ s.openStack, 1 ≤ t ∧ t ≤ k
  stack_sorted : s.openStack.Pairwise (fun a b => b < a)
  ranges_bounds : ∀ r ∈ s.validRanges, 1 ≤ r.startLine ∧ r.startLine < r.endLine ∧ r.endLine ≤ k
  ranges_stack : ∀ r ∈ s.validRanges, ∀ t ∈ s.openStack, t < r.startLine ∨ r.endLine < t
  ranges_laminar : ∀ r1 ∈ s.validRanges, ∀ r2 ∈ s.validRanges, r1 = r2 ∨ laminar r1 r2

def exNested : List Line := ["|> A".data, "|> B".data, "X".data, "<|".data, "<|".data]

/-- One iteration of the difference-array loop (editor_extension.ts lines
688-693): `if (range.end >= range.start) { diff[range.start]++;
diff[range.end + 1]--; }`.  The array is modelled as a function. -/
def bumpRange (d : Nat → Int) (r : BlockRange) : Nat → Int := fun j =>
  if r.startLine ≤ r.endLine then
    d j + (if j = r.startLine then 1 else 0) - (if j = r.endLine + 1 then 1 else 0)
  else d j

/-- The filled difference array for a document. -/
def diffArray (lines : List Line) : Nat → Int :=
  (scanDoc lines).validRanges.foldl bumpRange (fun _ => 0)

/-- Running prefix sum: the value of `currentLevel` after executing
`currentLevel += diff[i]` for `i = 1..k`. -/
def depthUpto (d : Nat → Int) : Nat → Int
  | 0 => 0
  | k + 1 => depthUpto d k + d (k + 1)

/-- The per-line nesting depth (`currentLevel` at line `i`). -/
def depthByLine (lines : List Line) (i : Nat) : Int :=
  depthUpto (diffArray lines) i

/-- Number of accepted blocks `b` with `b.start ≤ i ≤ b.end`. -/
def countContaining (rs : List BlockRange) (i : Nat) : Int :=
  ((rs.filter fun r => decide (r.startLine ≤ i ∧ i ≤ r.endLine)).length : Int)

/-- Number of blocks `b` with `b.start < i ≤ b.end`: the count that the
spec's sentence `depthByLine[i] = #{b | b.start < i ≤ b.end}` describes. -/
def countContainingSpec (rs : List BlockRange) (i : Nat) : Int :=
  ((rs.filter fun r => decide (r.startLine < i ∧ i ≤ r.endLine)).length : Int)

/-- The regex `/^(#+)\s/` of the fold service: a maximal non-empty run of
`#` followed by a whitespace character; returns the heading level. -/
def headerMatchLevel (l : Line) : Option Nat :=
  let hashes := l.takeWhile (fun c => c = '#')
  if hashes.length = 0 then none
  else
    match (l.drop hashes.length).head? with
    | some c => if c.isWhitespace then some hashes.length else none
    | none => none

/-- The forward scan of the fold service for a heading of level `L`
(editor_extension.ts lines 570-596): walk lines `i = h+1, h+2, ...` with a
nested-toggle counter; `START_TAG` increments it, `END_TAG` decrements it
when positive and otherwise stops at `i - 1`; after that, a heading of
level `≤ L` stops at `i - 1`.  Classification is on untrimmed text. -/
def headerScanAux (L : Nat) : Nat → Nat → List Line → Option Nat
  | _, _, [] => none
  | i, tstack, l :: ls =>
    if isOpen l then
      match headerMatchLevel l with
      | some lvl => if lvl ≤ L then some (i - 1) else headerScanAux L (i + 1) (tstack + 1) ls
      | none => headerScanAux L (i + 1) (tstack + 1) ls
    else if isClose l then
      if 0 < tstack then
        match headerMatchLevel l with
        | some lvl => if lvl ≤ L then some (i - 1) else headerScanAux L (i + 1) (tstack - 1) ls
        | none => headerScanAux L (i + 1) (tstack - 1) ls
      else some (i - 1)
    else
      match headerMatchLevel l with
      | some lvl => if lvl ≤ L then some (i - 1) else headerScanAux L (i + 1) tstack ls
      | none => headerScanAux L (i + 1) tstack ls

/-- The `endLineNo` computed by the fold service for a heading on line `h` of
level `L` (`none` models `-1`). -/
def headerFoldEnd (lines : List Line) (h L : Nat) : Option Nat :=
  headerScanAux L (h + 1) 0 (lines.drop h)

/-- Number of `OpenToggle` lines minus number of `CloseToggle` lines
strictly between lines `h` and `i`. -/
def toggleBalance (lines : List Line) (h i : Nat) : Int :=
  (((List.range' (h + 1) (i - h - 1)).filter fun j => isOpen (lineText lines j)).length : Int)
  - (((List.range' (h + 1) (i - h - 1)).filter fun j => isClose (lineText lines j)).length : Int)

/-- Stop condition of the claim, as a predicate on the line index `i`:
either a `CloseToggle` arriving while the open/close balance since the
heading is zero, or a heading of level `≤ L`. -/
def headerStopPred (lines : List Line) (h L : Nat) (i : Nat) : Bool :=
  (isClose (lineText lines i) && decide (toggleBalance lines h i = 0)) ||
  (match headerMatchLevel (lineText lines i) with
   | some lvl => decide (lvl ≤ L)
   | none => false)

/-- The first line at or after `h+1` satisfying the stop condition. -/
def headerFirstStop (lines : List Line) (h L : Nat) : Option Nat :=
  (List.range' (h + 1) (lines.length - h)).find? (headerStopPred lines h L)

/-- A `toggleEffect` value (togglePlugin.ts line 7). -/
structure ToggleEffect where
  pos : Nat
  isOn : Bool
deriving DecidableEq

/-- The `foldState` StateField update function (togglePlugin.ts lines
14-36): every stored position is mapped through `tr.changes.mapPos` and
kept (there is no check that the toggle syntax still exists at the mapped
position), then toggle effects are applied. -/
def foldStateUpdate (mapPos : Nat → Nat) (effects : List ToggleEffect)
    (value : Finset Nat) : Finset Nat :=
  effects.foldl (fun acc e => if e.isOn then insert e.pos acc else acc.erase e.pos)
    (value.image mapPos)

/-- The edit-driven remap alone: an update transaction with no toggle
effects. -/
def foldStateRemap (mapPos : Nat → Nat) (value : Finset Nat) : Finset Nat :=
  foldStateUpdate mapPos [] value

/-- The regex `TOGGLE_SYNTAX = /^\|>\s/` (togglePlugin.ts line 4). -/
def toggleMarker (l : Line) : Bool :=
  match l with
  | '|' :: '>' :: c :: _ => c.isWhitespace
  | _ => false

def exHeader : List Line :=
  ["|> x".data, "## T".data, "a".data, "<|".data, "b".data]

/-- The regex `/^\s*(#{1,6})\s/` applied to the content after the open
marker (editor_extension.ts line 717): optional leading whitespace, one to
six hashes, one whitespace; returns `(level, length of the match)`. -/
def headerToggleMatch (ca : Line) : Option (Nat × Nat) :=
  let ws := ca.takeWhile (fun c => c.isWhitespace)
  let rest := ca.drop ws.length
  let hashes := rest.takeWhile (fun c => c = '#')
  if 1 ≤ hashes.length ∧ hashes.length ≤ 6 then
    match (rest.drop hashes.length).head? with
    | some c =>
        if c.isWhitespace then some (hashes.length, ws.length + hashes.length + 1)
        else none
    | none => none
  else none

/-- The check `trimmedText.startsWith("\x60\x60\x60") || trimmedText.startsWith("~~~")`. -/
def isFenceLine (t : Line) : Bool := startsWith BT3 t || startsWith TD3 t

/-- the last non-whitespace character is `>`; together with the fence
prefix this is the regex `/^(\x60\x60\x60|~~~).*>\s*$/`. -/
def endsWithGt (t : Line) : Bool :=
  (t.reverse.dropWhile (fun c => c.isWhitespace)).head? = some '>'

/-- The test `isCodeBlockToggle` (editor_extension.ts line 766). -/
def isCodeBlockToggle (t : Line) : Bool := isFenceLine t && endsWithGt t

/-- The `endToken` for a fence line (backtick vs tilde delimiter). -/
def fenceToken (t : Line) : Line := if startsWith BT3 t then BT3 else TD3

/-- The search for the closing fence line (editor_extension.ts lines
774-780): the first later line whose trimmed text starts with the same
delimiter. -/
def findFenceEndAux (tok : Line) : Nat → List Line → Option Nat
  | _, [] => none
  | k, l :: ls =>
    if startsWith tok (trimStart l) then some k
    else findFenceEndAux tok (k + 1) ls

def findFenceEnd (lines : List Line) (i : Nat) (tok : Line) : Option Nat :=
  findFenceEndAux tok (i + 1) (lines.drop i)

/-- The helper `findMatchingEndLine` (editor_extension.ts lines 536-550): stack
counting over *trimmed* line text starting below `startLineNo` with the
counter at 1; `none` models the `-1` result. -/
def findMatchAux : Nat → Nat → List Line → Option Nat
  | _, _, [] => none
  | i, stack, l :: ls =>
    let t := trimStart l
    if isOpen t then findMatchAux (i + 1) (stack + 1) ls
    else if isClose t then
      if stack = 1 then some i else findMatchAux (i + 1) (stack - 1) ls
    else findMatchAux (i + 1) stack ls

def findMatchingEndLine (lines : List Line) (startLineNo : Nat) : Option Nat :=
  findMatchAux (startLineNo + 1) 1 (lines.drop startLineNo)

/-- A selection range of the host editor state. -/
structure SelRange where
  selFrom : Nat
  selTo : Nat
deriving DecidableEq

/-- The check `r.to >= rangeFrom && r.from <= rangeTo` over all selection ranges. -/
def selOverlaps (sel : List SelRange) (rangeFrom rangeTo : Nat) : Bool :=
  sel.any (fun r => decide (rangeFrom ≤ r.selTo) && decide (r.selFrom ≤ rangeTo))

/-- A decoration spec `{ from, to, deco }`. -/
structure Deco where
  fromPos : Nat
  toPos : Nat
  kind : DecoKind
deriving DecidableEq

/-- background (hash-hide / line-style) or marker-widget decoration? -/
def isBgKind : DecoKind → Bool
  | DecoKind.hashHide => true
  | DecoKind.lineStyle _ _ _ _ => true
  | _ => false

/-- The mutable state of the single-pass loop of `buildDecorations`:
`currentLevel`, `runningStack`, `inCodeBlock`. -/
structure BuildState where
  level : Int
  runningStack : Nat
  inCode : Bool
deriving DecidableEq

/-- Background decorations of one line (editor_extension.ts lines
707-762): when `currentLevel > 0`, an optional hash-hiding replacement for
a header-titled toggle (pushed first, only when the line is not selected
and `hashEnd <= line.to`), then the `Decoration.line` carrying the level
and rounding classes. -/
def bgDecos (lines : List Line) (sel : List SelRange) (i : Nat) (lvl : Int) : List Deco :=
  if 0 < lvl then
    let text := lineText lines i
    let t := trimStart text
    let indentLen := text.length - t.length
    let lFrom := lineFrom lines i
    let lTo := lineTo lines i
    let headerInfo := if isOpen t then headerToggleMatch (t.drop START_TAG.length) else none
    let hashDecos :=
      match headerInfo with
      | some (_, m) =>
          if selOverlaps sel lFrom lTo then []
          else
            let hashStart := lFrom + indentLen + START_TAG.length
            let hashEnd := hashStart + m
            if hashEnd ≤ lTo then [⟨hashStart, hashEnd, DecoKind.hashHide⟩] else []
      | none => []
    hashDecos ++
      [⟨lFrom, lFrom, DecoKind.lineStyle (min lvl 8) (isOpen t) (isClose t) (headerInfo.map Prod.fst)⟩]
  else []

/-- Code-block toggle triangle (editor_extension.ts lines 765-800): only
when not already inside a code block and a closing fence exists. -/
def fenceDecos (lines : List Line) (folded : Nat → Nat → Bool) (i : Nat)
    (st : BuildState) : List Deco :=
  let text := lineText lines i
  let t := trimStart text
  let indentLen := text.length - t.length
  if ¬ st.inCode ∧ isCodeBlockToggle t = true then
    match findFenceEnd lines i (fenceToken t) with
    | some k =>
        let fs := lineTo lines i
        let fe := lineTo lines k
        [⟨lineFrom lines i + indentLen, lineFrom lines i + indentLen,
          DecoKind.fenceTriangle (folded fs fe) fs fe⟩]
    | none => []
  else []

/-- Start-widget replacement for an `OpenToggle` line (editor_extension.ts
lines 809-846): suppressed when the selection touches the marker; the fold
range is `(line.to, doc.line(endLineNo).to)`. -/
def startDecos (lines : List Line) (sel : List SelRange) (folded : Nat → Nat → Bool)
    (i : Nat) : List Deco :=
  let text := lineText lines i
  let t := trimStart text
  let indentLen := text.length - t.length
  let rFrom := lineFrom lines i + indentLen
  let rTo := rFrom + START_TAG.length
  let isHeader := (headerToggleMatch (t.drop START_TAG.length)).isSome
  if selOverlaps sel rFrom rTo then []
  else
    match findMatchingEndLine lines i with
    | some j =>
        let fs := lineTo lines i
        let fe := lineTo lines j
        [⟨rFrom, rTo, DecoKind.startTriangle (folded fs fe) fs fe isHeader⟩]
    | none => []

/-- End-widget replacement for a `CloseToggle` line (editor_extension.ts
lines 850-877): suppressed when selected or orphaned. -/
def endDecos (lines : List Line) (sel : List SelRange) (i : Nat)
    (isOrphan : Bool) : List Deco :=
  let text := lineText lines i
  let t := trimStart text
  let indentLen := text.length - t.length
  let rFrom := lineFrom lines i + indentLen
  let rTo := rFrom + END_TAG.length
  if ¬ selOverlaps sel rFrom rTo ∧ isOrphan = false then
    [⟨rFrom, rTo, DecoKind.endLine rFrom⟩]
  else []

/-- Copy widget after an `OpenToggle` line with a matching close
(editor_extension.ts lines 881-894). -/
def copyDecos (lines : List Line) (i : Nat) : List Deco :=
  match findMatchingEndLine lines i with
  | some j => [⟨lineTo lines i, lineTo lines i, DecoKind.copyBtn i j⟩]
  | none => []

/-- One iteration of the single-pass decoration loop of `buildDecorations`
(editor_extension.ts lines 700-896): update `currentLevel`, emit the
background decorations, then either handle a fence line (toggling
`inCodeBlock` and skipping the rest), skip a fenced-code interior line, or
emit the start/end/copy widgets while maintaining `runningStack`. -/
def emitLine (lines : List Line) (sel : List SelRange) (folded : Nat → Nat → Bool)
    (i : Nat) (st : BuildState) : List Deco × BuildState :=
  let lvl := st.level + diffArray lines i
  let t := trimStart (lineText lines i)
  let bg := bgDecos lines sel i lvl
  if isFenceLine t then
    (bg ++ fenceDecos lines folded i st, ⟨lvl, st.runningStack, ¬ st.inCode⟩)
  else if st.inCode then
    (bg, ⟨lvl, st.runningStack, st.inCode⟩)
  else
    let rs1 := if isOpen t then st.runningStack + 1 else st.runningStack
    let sDecos := if isOpen t then startDecos lines sel folded i else []
    let isOrphan := decide (rs1 = 0)
    let rs2 := if isClose t then (if isOrphan then rs1 else rs1 - 1) else rs1
    let eDecos := if isClose t then endDecos lines sel i isOrphan else []
    let cDecos := if isOpen t then copyDecos lines i else []
    (bg ++ sDecos ++ eDecos ++ cDecos, ⟨lvl, rs2, st.inCode⟩)

/-- Run the decoration loop over the given line numbers, collecting the
pushed decorations in order. -/
def buildAux (lines : List Line) (sel : List SelRange) (folded : Nat → Nat → Bool) :
    List Nat → BuildState → List Deco
  | [], _ => []
  | i :: rest, st =>
    (emitLine lines sel folded i st).1 ++
      buildAux lines sel folded rest (emitLine lines sel folded i st).2

def initState : BuildState := ⟨0, 0, false⟩

/-- The decoration list of `buildDecorations` before sorting. -/
def buildDecoList (lines : List Line) (sel : List SelRange)
    (folded : Nat → Nat → Bool) : List Deco :=
  buildAux lines sel folded (List.range' 1 lines.length) initState

/-- Stable insertion keeping existing entries with `fromPos ≤ d.fromPos`
in front: models one step of the stable JavaScript
`decos.sort((a, b) => a.from - b.from)` (ties compare as `0`). -/
def insertDeco (d : Deco) : List Deco → List Deco
  | [] => [d]
  | e :: es => if e.fromPos ≤ d.fromPos then e :: insertDeco d es else d :: e :: es

/-- Stable sort by `fromPos` (the unique stable sort by that key). -/
def sortDecos (l : List Deco) : List Deco :=
  l.foldl (fun acc d => insertDeco d acc) []

/-- The sorted decoration list handed to the `RangeSetBuilder`. -/
def buildDecorations (lines : List Line) (sel : List SelRange)
    (folded : Nat → Nat → Bool) : List Deco :=
  sortDecos (buildDecoList lines sel folded)

/-- Loop state after processing a list of line numbers. -/
def stateThrough (lines : List Line) (sel : List SelRange) (folded : Nat → Nat → Bool) :
    List Nat → BuildState → BuildState
  | [], st => st
  | i :: rest, st => stateThrough lines sel folded rest (emitLine lines sel folded i st).2

/-- Loop state just after the first `k` lines of the document. -/
def stateAfter (lines : List Line) (sel : List SelRange) (folded : Nat → Nat → Bool)
    (k : Nat) : BuildState :=
  stateThrough lines sel folded (List.range' 1 k) initState

/-- The quantity `indentLen = text.length - trimmedText.length` for line `i`. -/
def indentLenOf (lines : List Line) (i : Nat) : Nat :=
  (lineText lines i).length - (trimStart (lineText lines i)).length

def exPlain : List Line := ["|> A".data, "<|".data]

def exFence : List Line := ["```".data, "|> A".data, "```".data, "X".data, "<|".data]

def exHeaderToggle : List Line := ["|> # T".data, "x".data, "<|".data]

/-- Pair relation: if two decorations share a start offset, an earlier one
must be a zero-width insert. -/
def Qrel (a b : Deco) : Prop := a.fromPos = b.fromPos → a.toPos = a.fromPos

/-- Relation `Srel`: sorted by start offset; equal starts force the earlier entry
to be zero-width. -/
def Srel (a b : Deco) : Prop := a.fromPos ≤ b.fromPos ∧ Qrel a b

def exWs : List Line := [" |> A".data, "<|".data]

def exOrphan : List Line := ["<|".data, "x".data]

theorem scanInv_init : ScanInv ⟨[], []⟩ 0 := by
  refine ⟨?_, ?_, ?_, ?_, ?_⟩ <;> simp

theorem scanInv_step {s : ScanState} {k : Nat} (h : ScanInv s k) (l : Line) :
    ScanInv (scanLine (k + 1) l s) (k + 1) := by
  unfold scanLine
  split
  · -- open: push k+1
    refine ⟨?_, ?_, ?_, ?_, ?_⟩
    · intro t ht
      simp only [List.mem_cons] at ht
      rcases ht with rfl | ht
      · omega
      · have := h.stack_le t ht; omega
    · refine List.Pairwise.cons ?_ h.stack_sorted
      intro t ht
      have := h.stack_le t ht; omega
    · intro r hr
      have := h.ranges_bounds r hr; omega
    · intro r hr t ht
      simp only [List.mem_cons] at ht
      rcases ht with rfl | ht
      · have := h.ranges_bounds r hr; omega
      · exact h.ranges_stack r hr t ht
    · exact h.ranges_laminar
  · split
    · -- close, stack shape
      split
      · -- empty stack: unchanged
        refine ⟨?_, h.stack_sorted, ?_, h.ranges_stack, h.ranges_laminar⟩
        · intro t ht; have := h.stack_le t ht; omega
        · intro r hr; have := h.ranges_bounds r hr; omega
      · -- pop st, record ⟨st, k+1⟩
        rename_i st rest heq
        have hstmem : st ∈ s.openStack := by rw [heq]; exact List.mem_cons_self _ _
        have hstle := h.stack_le st hstmem
        have hrest : ∀ t ∈ rest, t < st := by
          intro t ht
          have := h.stack_sorted
          rw [heq] at this
          exact (List.pairwise_cons.mp this).1 t ht
        refine ⟨?_, ?_, ?_, ?_, ?_⟩
        · intro t ht
          have : t ∈ s.openStack := by rw [heq]; exact List.mem_cons_of_mem _ ht
          have := h.stack_le t this; omega
        · have := h.stack_sorted
          rw [heq] at this
          exact (List.pairwise_cons.mp this).2
        · intro r hr
          simp only [List.mem_append, List.mem_singleton] at hr
          rcases hr with hr | rfl
          · have := h.ranges_bounds r hr; omega
          · simp only []; omega
        · intro r hr t ht
          simp only [List.mem_append, List.mem_singleton] at hr
          have htmem : t ∈ s.openStack := by rw [heq]; exact List.mem_cons_of_mem _ ht
          rcases hr with hr | rfl
          · exact h.ranges_stack r hr t htmem
          · left
            simp only []
            exact hrest t ht
        · intro r1 hr1 r2 hr2
          simp only [List.mem_append, List.mem_singleton] at hr1 hr2
          rcases hr1 with hr1 | rfl <;> rcases hr2 with hr2 | rfl
          · exact h.ranges_laminar r1 hr1 r2 hr2
          · -- r1 old, r2 = ⟨st, k+1⟩
            right
            have hb := h.ranges_bounds r1 hr1
            rcases h.ranges_stack r1 hr1 st hstmem with hlt | hgt
            · unfold laminar; simp only []; omega
            · unfold laminar; simp only []; omega
          · right
            have hb := h.ranges_bounds r2 hr2
            rcases h.ranges_stack r2 hr2 st hstmem with hlt | hgt
            · unfold laminar; simp only []; omega
            · unfold laminar; simp only []; omega
          · left; rfl
    · -- plain line
      refine ⟨?_, h.stack_sorted, ?_, h.ranges_stack, h.ranges_laminar⟩
      · intro t ht; have := h.stack_le t ht; omega
      · intro r hr; have := h.ranges_bounds r hr; omega

theorem scanInv_run (ls : List Line) :
    ∀ (k : Nat) (s : ScanState), ScanInv s k →
      ScanInv (scanLinesFrom (k + 1) ls s) (k + ls.length) := by
  induction ls with
  | nil => intro k s h; simpa using h
  | cons l ls ih =>
      intro k s h
      simp only [scanLinesFrom, List.length_cons]
      have h1 : ScanInv (scanLine (k + 1) l s) (k + 1) := scanInv_step h l
      have := ih (k + 1) (scanLine (k + 1) l s) h1
      have harith : k + 1 + ls.length = k + (ls.length + 1) := by omega
      rwa [harith] at this

theorem scanDoc_inv (lines : List Line) :
    ScanInv (scanDoc lines) lines.length := by
  have := scanInv_run lines 0 ⟨[], []⟩ scanInv_init
  simpa [scanDoc] using this

/-- C1: every accepted toggle block has `startLine < endLine`, and any two
accepted blocks are equal, disjoint, or one strictly contains the other. -/
theorem scan_blocks_well_nested (lines : List Line) (r1 r2 : BlockRange)
    (h1 : r1 ∈ (scanDoc lines).validRanges)
    (h2 : r2 ∈ (scanDoc lines).validRanges) :
    r1.startLine < r1.endLine ∧ (r1 = r2 ∨ laminar r1 r2) := by
  have hinv := scanDoc_inv lines
  exact ⟨(hinv.ranges_bounds r1 h1).2.1, hinv.ranges_laminar r1 h1 r2 h2⟩

theorem depthUpto_bump (d : Nat → Int) (r : BlockRange) (hr : 1 ≤ r.startLine) :
    ∀ i, depthUpto (bumpRange d r) i =
      depthUpto d i + (if r.startLine ≤ i ∧ i ≤ r.endLine then 1 else 0) := by
  intro i
  induction i with
  | zero =>
      simp only [depthUpto]
      split
      · omega
      · rfl
  | succ k ih =>
      simp only [depthUpto, ih, bumpRange]
      split_ifs <;> omega

theorem countContaining_cons (r : BlockRange) (rs : List BlockRange) (i : Nat) :
    countContaining (r :: rs) i =
      countContaining rs i + (if r.startLine ≤ i ∧ i ≤ r.endLine then 1 else 0) := by
  simp only [countContaining, List.filter_cons]
  by_cases hc : r.startLine ≤ i ∧ i ≤ r.endLine
  · simp [hc]
  · simp [hc]

theorem depthUpto_foldl (rs : List BlockRange) :
    ∀ (d : Nat → Int), (∀ r ∈ rs, 1 ≤ r.startLine) → ∀ i,
      depthUpto (rs.foldl bumpRange d) i = depthUpto d i + countContaining rs i := by
  induction rs with
  | nil => intro d _ i; simp [countContaining]
  | cons r rs ih =>
      intro d h i
      have hr : 1 ≤ r.startLine := h r (List.mem_cons_self _ _)
      have hrs : ∀ r' ∈ rs, 1 ≤ r'.startLine := fun r' h' => h r' (List.mem_cons_of_mem _ h')
      simp only [List.foldl_cons]
      rw [ih (bumpRange d r) hrs i, depthUpto_bump d r hr i, countContaining_cons]
      omega

theorem depthUpto_zero_fun (i : Nat) : depthUpto (fun _ => (0 : Int)) i = 0 := by
  induction i with
  | zero => rfl
  | succ k ih => simp [depthUpto, ih]

/-- C2 (amended): the difference-array pass computes the number of accepted
blocks that contain line `i` *inclusively of the block's open line*:
`depthByLine[i] = #{b | b.start ≤ i ≤ b.end}`. -/
theorem depthByLine_counts_inclusive (lines : List Line) (i : Nat) :
    depthByLine lines i = countContaining (scanDoc lines).validRanges i := by
  have hinv := scanDoc_inv lines
  have h1 : ∀ r ∈ (scanDoc lines).validRanges, 1 ≤ r.startLine :=
    fun r hr => (hinv.ranges_bounds r hr).1
  have h2 := depthUpto_foldl (scanDoc lines).validRanges (fun _ => 0) h1 i
  simp only [depthByLine, diffArray, h2, depthUpto_zero_fun]
  omega

/-- C2 counterexample: on `["|> A","|> B","X","<|","<|"]` the code's depth
at line 1 is `1` (the block's own open line is counted), while the spec's
formula `#{b | b.start < i ≤ b.end}` gives `0`; so the code's depths are
`[1,2,2,2,1]`, not the spec's `[0,1,2,2,1]`. -/
theorem depthByLine_open_line_counterexample :
    depthByLine exNested 1 = 1 ∧
      countContainingSpec (scanDoc exNested).validRanges 1 = 0 ∧
      (depthByLine exNested 1 ≠ countContainingSpec (scanDoc exNested).validRanges 1) := by
  refine ⟨by decide, by decide, by decide⟩

theorem isOpen_shape {l : Line} (h : isOpen l = true) :
    ∃ rest, l = '|' :: '>' :: ' ' :: rest := by
  match l with
  | [] => simp [isOpen, startsWith, START_TAG] at h
  | [c] => simp [isOpen, startsWith, START_TAG] at h
  | [c1, c2] => simp [isOpen, startsWith, START_TAG] at h
  | c1 :: c2 :: c3 :: rest =>
      simp only [isOpen, startsWith, START_TAG, Bool.and_eq_true, decide_eq_true_eq] at h
      obtain ⟨h1, h2, h3, _⟩ := h
      exact ⟨rest, by rw [h1, h2, h3]⟩

theorem isClose_shape {l : Line} (h : isClose l = true) :
    ∃ rest, l = '<' :: '|' :: rest := by
  match l with
  | [] => simp [isClose, startsWith, END_TAG] at h
  | [c] => simp [isClose, startsWith, END_TAG] at h
  | c1 :: c2 :: rest =>
      simp only [isClose, startsWith, END_TAG, Bool.and_eq_true, decide_eq_true_eq] at h
      obtain ⟨h1, h2, _⟩ := h
      exact ⟨rest, by rw [h1, h2]⟩

theorem isOpen_headerMatch {l : Line} (h : isOpen l = true) :
    headerMatchLevel l = none := by
  obtain ⟨rest, rfl⟩ := isOpen_shape h
  simp [headerMatchLevel, List.takeWhile]

theorem isClose_headerMatch {l : Line} (h : isClose l = true) :
    headerMatchLevel l = none := by
  obtain ⟨rest, rfl⟩ := isClose_shape h
  simp [headerMatchLevel, List.takeWhile]

theorem isOpen_not_isClose {l : Line} (h : isOpen l = true) : isClose l = false := by
  obtain ⟨rest, rfl⟩ := isOpen_shape h
  simp [isClose, startsWith, END_TAG]

theorem toggleBalance_base (lines : List Line) (h : Nat) :
    toggleBalance lines h (h + 1) = 0 := by
  simp [toggleBalance]

theorem toggleBalance_succ (lines : List Line) (h j : Nat) (hj : h + 1 ≤ j) :
    toggleBalance lines h (j + 1) = toggleBalance lines h j
      + (if isOpen (lineText lines j) then 1 else 0)
      - (if isClose (lineText lines j) then 1 else 0) := by
  have h1 : j + 1 - h - 1 = (j - h - 1) + 1 := by omega
  have h2 : h + 1 + 1 * (j - h - 1) = j := by omega
  rw [toggleBalance, toggleBalance, h1, List.range'_concat, h2,
    List.filter_append, List.filter_append, List.length_append, List.length_append]
  by_cases ho : isOpen (lineText lines j) <;>
    by_cases hc : isClose (lineText lines j) <;>
      simp [List.filter_cons, ho, hc] <;> omega

theorem lineText_of_drop {lines : List Line} {j : Nat} {l : Line} {ls : List Line}
    (hj : 1 ≤ j) (heq : lines.drop (j - 1) = l :: ls) :
    lineText lines j = l ∧ ls = lines.drop j := by
  constructor
  · have h0 : (lines.drop (j - 1))[0]? = some l := by rw [heq]; simp
    rw [List.getElem?_drop] at h0
    have hj1 : j - 1 + 0 = j - 1 := by omega
    rw [hj1] at h0
    match j, hj with
    | j + 1, _ =>
      simp only [lineText]
      simp only [Nat.add_sub_cancel] at h0
      simp [List.getD, h0]
  · have : (lines.drop (j - 1)).tail = lines.drop (j - 1 + 1) := List.tail_drop lines (j - 1)
    rw [heq] at this
    simp only [List.tail_cons] at this
    have hj1 : j - 1 + 1 = j := by omega
    rwa [hj1] at this

theorem headerScanAux_eq (lines : List Line) (h L : Nat) :
    ∀ (ls : List Line) (j ts : Nat), h + 1 ≤ j → ls = lines.drop (j - 1) →
      (ts : Int) = toggleBalance lines h j →
      headerScanAux L j ts ls =
        ((List.range' j (lines.length + 1 - j)).find?
          (headerStopPred lines h L)).map (fun i => i - 1) := by
  intro ls
  induction ls with
  | nil =>
      intro j ts hj heq hbal
      have hlen : lines.length ≤ j - 1 := by
        have := List.drop_eq_nil_iff.mp heq.symm
        omega
      have : lines.length + 1 - j = 0 := by omega
      simp [headerScanAux, this]
  | cons l ls ih =>
      intro j ts hj heq hbal
      obtain ⟨hline, hls⟩ := lineText_of_drop (by omega) heq.symm
      have hlt : j - 1 < lines.length := by
        by_contra hcon
        have : lines.drop (j - 1) = [] := List.drop_eq_nil_iff.mpr (by omega)
        rw [this] at heq
        exact absurd heq (by simp)
      have hcount : lines.length + 1 - j = ls.length + 1 := by
        have := congrArg List.length heq
        simp only [List.length_cons, List.length_drop] at this
        omega
      have hcount' : lines.length + 1 - (j + 1) = ls.length := by omega
      rw [hcount, List.range'_succ]
      by_cases hstop : headerStopPred lines h L j = true
      · rw [List.find?_cons_of_pos _ hstop]
        -- show the scan stops at j with result j - 1
        simp only [headerStopPred, hline, Bool.or_eq_true, Bool.and_eq_true,
          decide_eq_true_eq] at hstop
        by_cases hc : isClose l = true
        · have hml := isClose_headerMatch hc
          have hbal0 : toggleBalance lines h j = 0 := by
            rcases hstop with ⟨_, h0⟩ | hh
            · exact h0
            · rw [hml] at hh; simp at hh
          have hts : ts = 0 := by
            have h0 : (ts : Int) = 0 := by rw [hbal, hbal0]
            exact_mod_cast h0
          have ho : isOpen l = false := by
            by_contra hcon
            have := isOpen_not_isClose (by simpa using hcon)
            rw [hc] at this; exact absurd this (by simp)
          simp [headerScanAux, ho, hc, hts]
        · have ho : isOpen l = false := by
            by_contra hcon
            have h2 := isOpen_headerMatch (l := l) (by simpa using hcon)
            rcases hstop with ⟨hcl, _⟩ | hh
            · exact absurd hcl hc
            · rw [h2] at hh; simp at hh
          obtain ⟨lvl, hml, hlvl⟩ : ∃ lvl, headerMatchLevel l = some lvl ∧ lvl ≤ L := by
            rcases hstop with ⟨hcl, _⟩ | hh
            · exact absurd hcl hc
            · match hml : headerMatchLevel l with
              | some lvl => rw [hml] at hh; simp at hh; exact ⟨lvl, rfl, hh⟩
              | none => rw [hml] at hh; simp at hh
          simp [headerScanAux, ho, hc, hml, hlvl]
      · rw [List.find?_cons_of_neg _ hstop]
        simp only [headerStopPred, hline, Bool.or_eq_true, Bool.and_eq_true,
          decide_eq_true_eq, not_or, not_and] at hstop
        obtain ⟨hnc, hnh⟩ := hstop
        by_cases ho : isOpen l = true
        · have hml := isOpen_headerMatch ho
          have e1 : (if isOpen l = true then (1 : Int) else 0) = 1 := by simp [ho]
          have e2 : (if isClose l = true then (1 : Int) else 0) = 0 := by
            simp [isOpen_not_isClose ho]
          have hbal' : ((ts + 1 : Nat) : Int) = toggleBalance lines h (j + 1) := by
            rw [toggleBalance_succ lines h j hj, hline, e1, e2]
            push_cast
            omega
          have hih := ih (j + 1) (ts + 1) (by omega) (by simpa using hls) hbal'
          have hstep : headerScanAux L j ts (l :: ls) = headerScanAux L (j + 1) (ts + 1) ls := by
            simp [headerScanAux, ho, hml]
          rw [hstep, hih, hcount']
        · by_cases hc : isClose l = true
          · have hml := isClose_headerMatch hc
            have hbalne : toggleBalance lines h j ≠ 0 := by
              intro h0
              exact absurd h0 (hnc hc)
            have htspos : 0 < ts := by
              rcases Nat.eq_zero_or_pos ts with h0 | h0
              · rw [h0] at hbal; simp at hbal; exact absurd hbal.symm hbalne
              · exact h0
            have e1 : (if isOpen l = true then (1 : Int) else 0) = 0 := by simp [ho]
            have e2 : (if isClose l = true then (1 : Int) else 0) = 1 := by simp [hc]
            have hbal' : ((ts - 1 : Nat) : Int) = toggleBalance lines h (j + 1) := by
              rw [toggleBalance_succ lines h j hj, hline, e1, e2]
              push_cast [htspos]
              omega
            have hih := ih (j + 1) (ts - 1) (by omega) (by simpa using hls) hbal'
            have hstep : headerScanAux L j ts (l :: ls) = headerScanAux L (j + 1) (ts - 1) ls := by
              simp [headerScanAux, ho, hc, htspos, hml]
            rw [hstep, hih, hcount']
          · have e1 : (if isOpen l = true then (1 : Int) else 0) = 0 := by simp [ho]
            have e2 : (if isClose l = true then (1 : Int) else 0) = 0 := by simp [hc]
            have hbal' : (ts : Int) = toggleBalance lines h (j + 1) := by
              rw [toggleBalance_succ lines h j hj, hline, e1, e2]
              omega
            have hih := ih (j + 1) ts (by omega) (by simpa using hls) hbal'
            match hml : headerMatchLevel l with
            | some lvl =>
                have hlvl : ¬ lvl ≤ L := by
                  intro hcon
                  have hn2 := hnh
                  rw [hml] at hn2
                  simp [hcon] at hn2
                have hstep : headerScanAux L j ts (l :: ls) = headerScanAux L (j + 1) ts ls := by
                  simp [headerScanAux, ho, hc, hml, hlvl]
                rw [hstep, hih, hcount']
            | none =>
                have hstep : headerScanAux L j ts (l :: ls) = headerScanAux L (j + 1) ts ls := by
                  simp [headerScanAux, ho, hc, hml]
                rw [hstep, hih, hcount']

/-- C4: for a heading line `h` of level `L`, the fold-service forward scan
stops at `i₀ - 1` where `i₀` is the first line, in document order, that is
either a `CloseToggle` arriving while the nested-toggle balance since the
heading is zero, or a heading of level `≤ L`; it returns `none` when no
such line exists. -/
theorem headerFoldEnd_first_stop (lines : List Line) (h L : Nat)
    (_hL : headerMatchLevel (lineText lines h) = some L) :
    headerFoldEnd lines h L = (headerFirstStop lines h L).map (fun i => i - 1) := by
  have := headerScanAux_eq lines h L (lines.drop h) (h + 1) 0 (by omega)
    (by simp) (by rw [toggleBalance_base]; rfl)
  rw [headerFoldEnd, this]
  have harith : lines.length + 1 - (h + 1) = lines.length - h := by omega
  rw [harith]
  rfl

/-- C6 counterexample: document `["|> A","B"]` with the block on line 1
folded (anchor at offset 0); deleting the three characters `"|> "`
(positions map through `p ↦ p - 3`) leaves the document `["A","B"]`, whose
line 1 no longer carries the `OpenToggle` marker — yet the remapped fold
state still contains the anchor instead of dropping it. -/
theorem foldStateRemap_keeps_stale_anchor :
    foldStateRemap (fun p => p - 3) {0} = {0} ∧
      toggleMarker (lineText ["|> A".data, "B".data] 1) = true ∧
      toggleMarker (lineText ["A".data, "B".data] 1) = false := by
  refine ⟨by rfl, by decide, by decide⟩

/-- C6 (amended): the edit-driven remap is a pure image of the stored
positions under the host position map — no anchor is dropped for losing
its `OpenToggle` marker — and it never increases the set's cardinality. -/
theorem foldStateRemap_image (mapPos : Nat → Nat) (value : Finset Nat) :
    (foldStateRemap mapPos value).card ≤ value.card ∧
      ∀ p, p ∈ foldStateRemap mapPos value ↔ ∃ q ∈ value, mapPos q = p := by
  constructor
  · simpa [foldStateRemap, foldStateUpdate] using Finset.card_image_le
  · intro p
    simp [foldStateRemap, foldStateUpdate, Finset.mem_image]

/-- Witness for C4: heading `## T` on line 2 inside the toggle `1..4`; the
first stop is the enclosing toggle's close tag on line 4, so the heading
scope ends at line 3. -/
theorem headerFoldEnd_first_stop_witness :
    headerMatchLevel (lineText exHeader 2) = some 2 ∧
      headerFoldEnd exHeader 2 2 = (headerFirstStop exHeader 2 2).map (fun i => i - 1) ∧
      headerFoldEnd exHeader 2 2 = some 3 :=
  ⟨by decide, headerFoldEnd_first_stop exHeader 2 2 (by decide), by decide⟩

theorem trimStart_length_le (l : Line) : (trimStart l).length ≤ l.length :=
  ((List.dropWhile_suffix _).sublist).length_le

theorem indentLen_add_trim (lines : List Line) (i : Nat) :
    indentLenOf lines i + (trimStart (lineText lines i)).length = (lineText lines i).length := by
  have := trimStart_length_le (lineText lines i)
  unfold indentLenOf
  omega

theorem isOpen_length {l : Line} (h : isOpen l = true) : 3 ≤ l.length := by
  obtain ⟨rest, rfl⟩ := isOpen_shape h
  simp

theorem isClose_length {l : Line} (h : isClose l = true) : 2 ≤ l.length := by
  obtain ⟨rest, rfl⟩ := isClose_shape h
  simp

theorem isClose_not_isOpen {l : Line} (h : isClose l = true) : isOpen l = false := by
  obtain ⟨rest, rfl⟩ := isClose_shape h
  simp [isOpen, startsWith, START_TAG]

theorem isFenceLine_not_isOpen {l : Line} (h : isFenceLine l = true) : isOpen l = false := by
  rcases Bool.or_eq_true_iff.mp h with hb | ht
  · match l with
    | [] => simp [startsWith, BT3] at hb
    | c :: cs =>
        simp only [startsWith, BT3, Bool.and_eq_true, decide_eq_true_eq] at hb
        simp [isOpen, startsWith, START_TAG, ← hb.1]
  · match l with
    | [] => simp [startsWith, TD3] at ht
    | c :: cs =>
        simp only [startsWith, TD3, Bool.and_eq_true, decide_eq_true_eq] at ht
        simp [isOpen, startsWith, START_TAG, ← ht.1]

theorem isFenceLine_not_isClose {l : Line} (h : isFenceLine l = true) : isClose l = false := by
  rcases Bool.or_eq_true_iff.mp h with hb | ht
  · match l with
    | [] => simp [startsWith, BT3] at hb
    | c :: cs =>
        simp only [startsWith, BT3, Bool.and_eq_true, decide_eq_true_eq] at hb
        simp [isClose, startsWith, END_TAG, ← hb.1]
  · match l with
    | [] => simp [startsWith, TD3] at ht
    | c :: cs =>
        simp only [startsWith, TD3, Bool.and_eq_true, decide_eq_true_eq] at ht
        simp [isClose, startsWith, END_TAG, ← ht.1]

theorem headerToggleMatch_ge_two {ca : Line} {lvl m : Nat}
    (h : headerToggleMatch ca = some (lvl, m)) : 2 ≤ m := by
  unfold headerToggleMatch at h
  dsimp only at h
  split at h
  · rename_i hlen
    split at h
    · split at h
      · simp only [Option.some_inj, Prod.mk.injEq] at h
        omega
      · exact absurd h (by simp)
    · exact absurd h (by simp)
  · exact absurd h (by simp)

/-- Characterisation of background decorations: the line-style entry is a
zero-width entry at `line.from`; the hash-hiding entry starts three
characters after the marker start, is at least two characters wide, lies
inside the line, and is emitted only for header-titled `OpenToggle`
lines. -/
theorem mem_bgDecos_spec {lines : List Line} {sel : List SelRange} {i : Nat} {lvl : Int}
    {d : Deco} (hd : d ∈ bgDecos lines sel i lvl) :
    (d.fromPos = lineFrom lines i ∧ d.toPos = lineFrom lines i ∧ isBgKind d.kind = true) ∨
    (d.kind = DecoKind.hashHide ∧ isOpen (trimStart (lineText lines i)) = true ∧
      ∃ m, 2 ≤ m ∧ d.fromPos = lineFrom lines i + indentLenOf lines i + 3 ∧
        d.toPos = d.fromPos + m ∧ d.toPos ≤ lineTo lines i) := by
  unfold bgDecos at hd
  by_cases hl : 0 < lvl
  · rw [if_pos hl] at hd
    simp only at hd
    by_cases ho : isOpen (trimStart (lineText lines i)) = true
    · rw [if_pos ho] at hd
      match hm : headerToggleMatch ((trimStart (lineText lines i)).drop START_TAG.length) with
      | some (lvl2, m) =>
          rw [hm] at hd
          simp only [List.mem_append, List.mem_singleton] at hd
          rcases hd with h | h
          · by_cases hsel : selOverlaps sel (lineFrom lines i) (lineTo lines i) = true
            · rw [if_pos hsel] at h
              exact absurd h (by simp)
            · rw [if_neg hsel] at h
              split at h
              · rename_i hend
                simp only [List.mem_singleton] at h
                subst h
                right
                refine ⟨rfl, ho, m, headerToggleMatch_ge_two hm, ?_, ?_, ?_⟩
                · simp [indentLenOf, START_TAG]
                · simp [START_TAG]
                · simpa [START_TAG] using hend
              · exact absurd h (by simp)
          · subst h
            left
            exact ⟨rfl, rfl, rfl⟩
      | none =>
          rw [hm] at hd
          simp only [List.nil_append, List.mem_singleton] at hd
          subst hd
          left
          exact ⟨rfl, rfl, rfl⟩
    · have ho0 : isOpen (trimStart (lineText lines i)) = false := by simpa using ho
      rw [ho0] at hd
      simp only [Bool.false_eq_true, if_false, List.nil_append, List.mem_singleton] at hd
      subst hd
      left
      exact ⟨rfl, rfl, rfl⟩
  · rw [if_neg hl] at hd
    exact absurd hd (by simp)

theorem mem_fenceDecos_spec {lines : List Line} {folded : Nat → Nat → Bool} {i : Nat}
    {st : BuildState} {d : Deco} (hd : d ∈ fenceDecos lines folded i st) :
    st.inCode = false ∧ isCodeBlockToggle (trimStart (lineText lines i)) = true ∧
      d.fromPos = lineFrom lines i + indentLenOf lines i ∧ d.toPos = d.fromPos ∧
      ∃ f a b, d.kind = DecoKind.fenceTriangle f a b := by
  unfold fenceDecos at hd
  simp only at hd
  split at hd
  · rename_i hcond
    split at hd
    · rename_i k hk
      simp only [List.mem_singleton] at hd
      subst hd
      refine ⟨by simpa using hcond.1, hcond.2, by simp [indentLenOf], rfl, _, _, _, rfl⟩
    · exact absurd hd (by simp)
  · exact absurd hd (by simp)

theorem mem_startDecos_spec {lines : List Line} {sel : List SelRange}
    {folded : Nat → Nat → Bool} {i : Nat} {d : Deco}
    (hd : d ∈ startDecos lines sel folded i) :
    d.fromPos = lineFrom lines i + indentLenOf lines i ∧ d.toPos = d.fromPos + 3 ∧
      ∃ j, findMatchingEndLine lines i = some j ∧
        ∃ f inv, d.kind =
          DecoKind.startTriangle f (lineTo lines i) (lineTo lines j) inv := by
  unfold startDecos at hd
  simp only at hd
  split at hd
  · exact absurd hd (by simp)
  · split at hd
    · rename_i j hj
      simp only [List.mem_singleton] at hd
      subst hd
      exact ⟨by simp [indentLenOf], by simp [START_TAG], j, hj, _, _, rfl⟩
    · exact absurd hd (by simp)

theorem mem_endDecos_spec {lines : List Line} {sel : List SelRange} {i : Nat}
    {orph : Bool} {d : Deco} (hd : d ∈ endDecos lines sel i orph) :
    orph = false ∧ d.fromPos = lineFrom lines i + indentLenOf lines i ∧
      d.toPos = d.fromPos + 2 ∧ d.kind = DecoKind.endLine d.fromPos := by
  unfold endDecos at hd
  simp only at hd
  split at hd
  · rename_i hcond
    simp only [List.mem_singleton] at hd
    subst hd
    exact ⟨hcond.2, by simp [indentLenOf], by simp [END_TAG], rfl⟩
  · exact absurd hd (by simp)

theorem mem_copyDecos_spec {lines : List Line} {i : Nat} {d : Deco}
    (hd : d ∈ copyDecos lines i) :
    d.fromPos = lineTo lines i ∧ d.toPos = lineTo lines i ∧
      ∃ j, findMatchingEndLine lines i = some j ∧ d.kind = DecoKind.copyBtn i j := by
  unfold copyDecos at hd
  split at hd
  · rename_i j hj
    simp only [List.mem_singleton] at hd
    subst hd
    exact ⟨rfl, rfl, j, hj, rfl⟩
  · exact absurd hd (by simp)

/-- Case analysis for membership in the decorations of one line. -/
theorem mem_emitLine_cases {lines : List Line} {sel : List SelRange}
    {folded : Nat → Nat → Bool} {i : Nat} {st : BuildState} {d : Deco}
    (hd : d ∈ (emitLine lines sel folded i st).1) :
    d ∈ bgDecos lines sel i (st.level + diffArray lines i) ∨
    (isFenceLine (trimStart (lineText lines i)) = true ∧ d ∈ fenceDecos lines folded i st) ∨
    (isFenceLine (trimStart (lineText lines i)) = false ∧ st.inCode = false ∧
      isOpen (trimStart (lineText lines i)) = true ∧
      (d ∈ startDecos lines sel folded i ∨ d ∈ copyDecos lines i)) ∨
    (isFenceLine (trimStart (lineText lines i)) = false ∧ st.inCode = false ∧
      isClose (trimStart (lineText lines i)) = true ∧
      d ∈ endDecos lines sel i (decide (st.runningStack = 0))) := by
  by_cases hf : isFenceLine (trimStart (lineText lines i)) = true
  · simp only [emitLine, hf, if_true] at hd
    rcases List.mem_append.mp hd with h | h
    · exact Or.inl h
    · exact Or.inr (Or.inl ⟨hf, h⟩)
  · have hf0 : isFenceLine (trimStart (lineText lines i)) = false := by simpa using hf
    by_cases hc : st.inCode = true
    · simp only [emitLine, hf0, hc, Bool.false_eq_true, if_false, if_true] at hd
      exact Or.inl hd
    · have hc0 : st.inCode = false := by simpa using hc
      simp only [emitLine, hf0, hc0, Bool.false_eq_true, if_false] at hd
      rcases List.mem_append.mp hd with h | h
      · rcases List.mem_append.mp h with h | h
        · rcases List.mem_append.mp h with h | h
          · exact Or.inl h
          · -- start widgets
            by_cases ho : isOpen (trimStart (lineText lines i)) = true
            · rw [if_pos ho] at h
              exact Or.inr (Or.inr (Or.inl ⟨hf0, hc0, ho, Or.inl h⟩))
            · rw [if_neg ho] at h
              exact absurd h (by simp)
        · -- end widgets
          by_cases hcl : isClose (trimStart (lineText lines i)) = true
          · rw [if_pos hcl] at h
            have ho : isOpen (trimStart (lineText lines i)) = false := isClose_not_isOpen hcl
            rw [ho] at h
            simp only [Bool.false_eq_true, if_false] at h
            exact Or.inr (Or.inr (Or.inr ⟨hf0, hc0, hcl, h⟩))
          · rw [if_neg hcl] at h
            exact absurd h (by simp)
      · -- copy widgets
        by_cases ho : isOpen (trimStart (lineText lines i)) = true
        · rw [if_pos ho] at h
          exact Or.inr (Or.inr (Or.inl ⟨hf0, hc0, ho, Or.inr h⟩))
        · rw [if_neg ho] at h
          exact absurd h (by simp)

/-- C3: whenever `findMatchingEndLine` finds the matching close line `j`
of line `i`, any start-triangle replacement emitted for line `i` binds the
fold range `(lineTo i, lineTo j)`: end-of-open-line offset to
end-of-close-line offset. -/
theorem startTriangle_fold_range (lines : List Line) (sel : List SelRange)
    (folded : Nat → Nat → Bool) (st : BuildState) (i j : Nat)
    (hj : findMatchingEndLine lines i = some j)
    (d : Deco) (hd : d ∈ (emitLine lines sel folded i st).1)
    (f : Bool) (fs fe : Nat) (inv : Bool)
    (hk : d.kind = DecoKind.startTriangle f fs fe inv) :
    fs = lineTo lines i ∧ fe = lineTo lines j := by
  rcases mem_emitLine_cases hd with h | ⟨_, h⟩ | ⟨_, _, _, h | h⟩ | ⟨_, _, _, h⟩
  · rcases mem_bgDecos_spec h with ⟨_, _, hbg⟩ | ⟨hk2, _⟩
    · rw [hk] at hbg; simp [isBgKind] at hbg
    · rw [hk] at hk2; simp at hk2
  · obtain ⟨_, _, _, _, f2, a, b, hk2⟩ := mem_fenceDecos_spec h
    rw [hk] at hk2; simp at hk2
  · obtain ⟨_, _, j2, hj2, f2, inv2, hk2⟩ := mem_startDecos_spec h
    rw [hj] at hj2
    have hjj : j2 = j := by
      have := Option.some_inj.mp hj2
      omega
    rw [hk, hjj] at hk2
    simp only [DecoKind.startTriangle.injEq] at hk2
    exact ⟨hk2.2.1, hk2.2.2.1⟩
  · obtain ⟨_, _, j2, _, hk2⟩ := mem_copyDecos_spec h
    rw [hk] at hk2; simp at hk2
  · obtain ⟨_, _, _, hk2⟩ := mem_endDecos_spec h
    rw [hk] at hk2; simp at hk2

/-- Witness for C3 on `["|> A","<|"]`: the triangle of line 1 binds the
fold range `(4, 7) = (lineTo 1, lineTo 2)`. -/
theorem startTriangle_fold_range_witness :
    findMatchingEndLine exPlain 1 = some 2 ∧
      (⟨0, 3, DecoKind.startTriangle false 4 7 false⟩ : Deco) ∈
        (emitLine exPlain [] (fun _ _ => false) 1 initState).1 ∧
      (4 = lineTo exPlain 1 ∧ 7 = lineTo exPlain 2) :=
  ⟨by decide, by decide,
    startTriangle_fold_range exPlain [] (fun _ _ => false) initState 1 2 (by decide)
      ⟨0, 3, DecoKind.startTriangle false 4 7 false⟩ (by decide) false 4 7 false rfl⟩

/-- C5 (amended): a line processed while `inCodeBlock` is set receives
only background decorations (line style, hash hiding): no start triangle,
no end-tag replacement, no copy affordance, no fence triangle. -/
theorem fenced_line_only_bg (lines : List Line) (sel : List SelRange)
    (folded : Nat → Nat → Bool) (i : Nat) (st : BuildState)
    (hcode : st.inCode = true) (d : Deco)
    (hd : d ∈ (emitLine lines sel folded i st).1) : isBgKind d.kind = true := by
  rcases mem_emitLine_cases hd with h | ⟨_, h⟩ | ⟨_, hc0, _⟩ | ⟨_, hc0, _⟩
  · rcases mem_bgDecos_spec h with ⟨_, _, hbg⟩ | ⟨hk, _⟩
    · exact hbg
    · rw [hk]; rfl
  · obtain ⟨hc0, _⟩ := mem_fenceDecos_spec h
    rw [hcode] at hc0
    exact absurd hc0 (by simp)
  · rw [hcode] at hc0
    exact absurd hc0 (by simp)
  · rw [hcode] at hc0
    exact absurd hc0 (by simp)

/-- C5 counterexample: in the fence example the line `"|> A"` lies inside
an active fenced-code region (the loop state after line 1 has
`inCodeBlock = true`), yet the pairing scan still accepts the block
`(2,5)` opened by it and line 3 has depth 1 — the fence does not suppress
the scanner. -/
theorem fenced_open_counterexample :
    (stateAfter exFence [] (fun _ _ => false) 1).inCode = true ∧
      (scanDoc exFence).validRanges = [⟨2, 5⟩] ∧
      depthByLine exFence 3 = 1 := by
  refine ⟨by decide, by decide, by decide⟩

/-- Witness for C5 (amended) on the fence example: line 2 is processed
with `inCodeBlock = true` and its only decoration is the background line
style. -/
theorem fenced_line_only_bg_witness :
    (stateAfter exFence [] (fun _ _ => false) 1).inCode = true ∧
      (⟨4, 4, DecoKind.lineStyle 1 true false none⟩ : Deco) ∈
        (emitLine exFence [] (fun _ _ => false) 2
          (stateAfter exFence [] (fun _ _ => false) 1)).1 ∧
      isBgKind (DecoKind.lineStyle 1 true false none) = true :=
  ⟨by decide, by decide,
    fenced_line_only_bg exFence [] (fun _ _ => false) 2
      (stateAfter exFence [] (fun _ _ => false) 1) (by decide)
      ⟨4, 4, DecoKind.lineStyle 1 true false none⟩ (by decide)⟩

/-- C10: every hash-hiding replacement emitted while processing line `i`
lies entirely within line `i`: it starts at or after `line.from` and ends
at or before `line.to`. -/
theorem hashHide_within_line (lines : List Line) (sel : List SelRange)
    (folded : Nat → Nat → Bool) (i : Nat) (st : BuildState) (d : Deco)
    (hd : d ∈ (emitLine lines sel folded i st).1)
    (hk : d.kind = DecoKind.hashHide) :
    lineFrom lines i ≤ d.fromPos ∧ d.toPos ≤ lineTo lines i := by
  have hFT : lineFrom lines i ≤ lineTo lines i := by
    unfold lineTo; omega
  rcases mem_emitLine_cases hd with h | ⟨_, h⟩ | ⟨_, _, _, h | h⟩ | ⟨_, _, _, h⟩
  · rcases mem_bgDecos_spec h with ⟨hf1, ht1, _⟩ | ⟨_, _, m, hm, hfrom, hto, hle⟩
    · rw [hf1, ht1]; omega
    · constructor
      · omega
      · exact hle
  · obtain ⟨_, _, _, _, _, _, _, hk2⟩ := mem_fenceDecos_spec h
    rw [hk] at hk2; simp at hk2
  · obtain ⟨_, _, _, _, _, _, hk2⟩ := mem_startDecos_spec h
    rw [hk] at hk2; simp at hk2
  · obtain ⟨_, _, _, _, hk2⟩ := mem_copyDecos_spec h
    rw [hk] at hk2; simp at hk2
  · obtain ⟨_, _, _, hk2⟩ := mem_endDecos_spec h
    rw [hk] at hk2; simp at hk2

/-- Witness for C10 on `["|> # T","x","<|"]`: the hash-hiding replacement
`(3,5)` of line 1 lies within `(0,6)`. -/
theorem hashHide_within_line_witness :
    (⟨3, 5, DecoKind.hashHide⟩ : Deco) ∈
      (emitLine exHeaderToggle [] (fun _ _ => false) 1 initState).1 ∧
      (lineFrom exHeaderToggle 1 ≤ 3 ∧ 5 ≤ lineTo exHeaderToggle 1) :=
  ⟨by decide,
    hashHide_within_line exHeaderToggle [] (fun _ _ => false) 1 initState
      ⟨3, 5, DecoKind.hashHide⟩ (by decide) rfl⟩

theorem pairwise_of_length_le_one {R : Deco → Deco → Prop} (l : List Deco)
    (h : l.length ≤ 1) : l.Pairwise R := by
  match l with
  | [] => exact List.Pairwise.nil
  | [a] => simp
  | a :: b :: rest => simp at h

theorem fenceDecos_length (lines : List Line) (folded : Nat → Nat → Bool)
    (i : Nat) (st : BuildState) : (fenceDecos lines folded i st).length ≤ 1 := by
  unfold fenceDecos
  simp only
  split
  · split <;> simp
  · simp

theorem startDecos_length (lines : List Line) (sel : List SelRange)
    (folded : Nat → Nat → Bool) (i : Nat) :
    (startDecos lines sel folded i).length ≤ 1 := by
  unfold startDecos
  simp only
  split
  · simp
  · split <;> simp

theorem endDecos_length (lines : List Line) (sel : List SelRange) (i : Nat)
    (orph : Bool) : (endDecos lines sel i orph).length ≤ 1 := by
  unfold endDecos
  simp only
  split <;> simp

theorem copyDecos_length (lines : List Line) (i : Nat) :
    (copyDecos lines i).length ≤ 1 := by
  unfold copyDecos
  split <;> simp

theorem bgDecos_pairwiseQ (lines : List Line) (sel : List SelRange) (i : Nat)
    (lvl : Int) : (bgDecos lines sel i lvl).Pairwise Qrel := by
  unfold bgDecos
  by_cases hl : 0 < lvl
  · rw [if_pos hl]
    simp only
    by_cases ho : isOpen (trimStart (lineText lines i)) = true
    · rw [if_pos ho]
      match hm : headerToggleMatch ((trimStart (lineText lines i)).drop START_TAG.length) with
      | some (lvl2, m) =>
          dsimp only
          by_cases hsel : selOverlaps sel (lineFrom lines i) (lineTo lines i) = true
          · rw [if_pos hsel]
            simp
          · rw [if_neg hsel]
            split
            · rw [List.singleton_append]
              refine List.pairwise_cons.mpr ⟨?_, by simp⟩
              intro b hb
              simp only [List.mem_singleton] at hb
              subst hb
              intro habs
              simp only [START_TAG, List.length_cons, List.length_nil] at habs
              omega
            · simp
      | none => simp
    · have ho0 : isOpen (trimStart (lineText lines i)) = false := by simpa using ho
      rw [ho0]
      simp
  · rw [if_neg hl]
    exact List.Pairwise.nil

theorem emitLine_eq_fence {lines : List Line} {sel : List SelRange}
    {folded : Nat → Nat → Bool} {i : Nat} {st : BuildState}
    (hf : isFenceLine (trimStart (lineText lines i)) = true) :
    (emitLine lines sel folded i st).1 =
      bgDecos lines sel i (st.level + diffArray lines i) ++ fenceDecos lines folded i st := by
  simp [emitLine, hf]

theorem emitLine_eq_inCode {lines : List Line} {sel : List SelRange}
    {folded : Nat → Nat → Bool} {i : Nat} {st : BuildState}
    (hf : isFenceLine (trimStart (lineText lines i)) = false)
    (hc : st.inCode = true) :
    (emitLine lines sel folded i st).1 =
      bgDecos lines sel i (st.level + diffArray lines i) := by
  simp [emitLine, hf, hc]

theorem emitLine_eq_main {lines : List Line} {sel : List SelRange}
    {folded : Nat → Nat → Bool} {i : Nat} {st : BuildState}
    (hf : isFenceLine (trimStart (lineText lines i)) = false)
    (hc : st.inCode = false) :
    (emitLine lines sel folded i st).1 =
      bgDecos lines sel i (st.level + diffArray lines i) ++
        ((if isOpen (trimStart (lineText lines i)) then startDecos lines sel folded i else []) ++
          ((if isClose (trimStart (lineText lines i)) then
              endDecos lines sel i
                (decide ((if isOpen (trimStart (lineText lines i)) then st.runningStack + 1
                  else st.runningStack) = 0))
            else []) ++
            (if isOpen (trimStart (lineText lines i)) then copyDecos lines i else []))) := by
  simp [emitLine, hf, hc, List.append_assoc]

theorem emitLine_pairwiseQ (lines : List Line) (sel : List SelRange)
    (folded : Nat → Nat → Bool) (i : Nat) (st : BuildState) :
    ((emitLine lines sel folded i st).1).Pairwise Qrel := by
  by_cases hf : isFenceLine (trimStart (lineText lines i)) = true
  · rw [emitLine_eq_fence hf]
    refine List.pairwise_append.mpr ⟨bgDecos_pairwiseQ lines sel i _, ?_, ?_⟩
    · exact pairwise_of_length_le_one _ (fenceDecos_length lines folded i st)
    · intro a ha b hb
      rcases mem_bgDecos_spec ha with ⟨hf1, ht1, _⟩ | ⟨_, ho, _⟩
      · intro _; rw [ht1, hf1]
      · rw [isFenceLine_not_isOpen hf] at ho
        exact absurd ho (by simp)
  · have hf0 : isFenceLine (trimStart (lineText lines i)) = false := by simpa using hf
    by_cases hc : st.inCode = true
    · rw [emitLine_eq_inCode hf0 hc]
      exact bgDecos_pairwiseQ lines sel i _
    · have hc0 : st.inCode = false := by simpa using hc
      rw [emitLine_eq_main hf0 hc0]
      by_cases ho : isOpen (trimStart (lineText lines i)) = true
      · have hcl : isClose (trimStart (lineText lines i)) = false := isOpen_not_isClose ho
        rw [ho, hcl]
        simp only [if_true, Bool.false_eq_true, if_false, List.nil_append]
        have hlen3 : 3 ≤ (trimStart (lineText lines i)).length := isOpen_length ho
        have hind := indentLen_add_trim lines i
        refine List.pairwise_append.mpr ⟨bgDecos_pairwiseQ lines sel i _, ?_, ?_⟩
        · refine List.pairwise_append.mpr
            ⟨pairwise_of_length_le_one _ (startDecos_length lines sel folded i),
             pairwise_of_length_le_one _ (copyDecos_length lines i), ?_⟩
          intro a ha b hb
          obtain ⟨haf, hat, _⟩ := mem_startDecos_spec ha
          obtain ⟨hbf, _, _⟩ := mem_copyDecos_spec hb
          intro habs
          rw [haf, hbf] at habs
          unfold lineTo at habs
          unfold indentLenOf at habs
          omega
        · intro a ha b hb
          rcases mem_bgDecos_spec ha with ⟨hf1, ht1, _⟩ | ⟨_, _, m, hm, haf, hat, hale⟩
          · intro _; rw [ht1, hf1]
          · rcases List.mem_append.mp hb with hb | hb
            · obtain ⟨hbf, _, _⟩ := mem_startDecos_spec hb
              intro habs
              rw [haf, hbf] at habs
              omega
            · obtain ⟨hbf, _, _⟩ := mem_copyDecos_spec hb
              intro habs
              rw [hat, haf] at hale
              rw [haf, hbf] at habs
              omega
      · have ho0 : isOpen (trimStart (lineText lines i)) = false := by simpa using ho
        rw [ho0]
        simp only [Bool.false_eq_true, if_false, List.nil_append, List.append_nil]
        by_cases hcl : isClose (trimStart (lineText lines i)) = true
        · rw [hcl]
          simp only [if_true]
          refine List.pairwise_append.mpr ⟨bgDecos_pairwiseQ lines sel i _, ?_, ?_⟩
          · exact pairwise_of_length_le_one _ (endDecos_length lines sel i _)
          · intro a ha b hb
            rcases mem_bgDecos_spec ha with ⟨hf1, ht1, _⟩ | ⟨_, ho2, _⟩
            · intro _; rw [ht1, hf1]
            · rw [ho0] at ho2
              exact absurd ho2 (by simp)
        · have hcl0 : isClose (trimStart (lineText lines i)) = false := by simpa using hcl
          rw [hcl0]
          simp only [Bool.false_eq_true, if_false, List.append_nil]
          exact bgDecos_pairwiseQ lines sel i _

/-- Every decoration emitted at line `i` lies within the line's span and
has `fromPos ≤ toPos`. -/
theorem emitLine_span (lines : List Line) (sel : List SelRange)
    (folded : Nat → Nat → Bool) (i : Nat) (st : BuildState) (d : Deco)
    (hd : d ∈ (emitLine lines sel folded i st).1) :
    lineFrom lines i ≤ d.fromPos ∧ d.fromPos ≤ d.toPos ∧ d.toPos ≤ lineTo lines i := by
  have hind := indentLen_add_trim lines i
  have hlt : lineFrom lines i ≤ lineTo lines i := by unfold lineTo; omega
  rcases mem_emitLine_cases hd with h | ⟨_, h⟩ | ⟨_, _, ho, h | h⟩ | ⟨_, _, hcl, h⟩
  · rcases mem_bgDecos_spec h with ⟨hf1, ht1, _⟩ | ⟨_, _, m, hm, haf, hat, hale⟩
    · rw [hf1, ht1]; omega
    · omega
  · obtain ⟨_, _, hbf, hbt, _⟩ := mem_fenceDecos_spec h
    have : indentLenOf lines i ≤ (lineText lines i).length := by
      unfold indentLenOf; omega
    unfold lineTo
    omega
  · obtain ⟨hbf, hbt, _⟩ := mem_startDecos_spec h
    have h3 := isOpen_length ho
    unfold lineTo
    omega
  · obtain ⟨hbf, hbt, _⟩ := mem_copyDecos_spec h
    rw [hbf, hbt]
    omega
  · obtain ⟨_, hbf, hbt, _⟩ := mem_endDecos_spec h
    have h2 := isClose_length hcl
    unfold lineTo
    omega

theorem lineFrom_mono {lines : List Line} {a b : Nat} (h : a ≤ b) :
    lineFrom lines a ≤ lineFrom lines b := by
  match a, b, h with
  | 0, b, _ => simp [lineFrom]
  | a + 1, b + 1, h =>
      simp only [lineFrom]
      have h1 : lines.take a = (lines.take b).take a := by
        rw [List.take_take]
        congr 1
        omega
      rw [h1, List.map_take]
      set M := (lines.take b).map (fun l => l.length + 1) with hM
      calc (M.take a).sum ≤ (M.take a).sum + (M.drop a).sum := Nat.le_add_right _ _
        _ = M.sum := by rw [← List.sum_append, List.take_append_drop]

theorem lineFrom_succ_eq {lines : List Line} {i : Nat} (h1 : 1 ≤ i)
    (h2 : i ≤ lines.length) : lineFrom lines (i + 1) = lineTo lines i + 1 := by
  match i, h1 with
  | i + 1, _ =>
      have hlt : i < lines.length := by simpa using h2
      have e1 : lines[i]?.toList = [lines[i]] := by
        rw [List.getElem?_eq_getElem hlt]
        rfl
      have e2 : lines.getD i [] = lines[i] := by
        simp [List.getD_eq_getElem?_getD, List.getElem?_eq_getElem hlt]
      simp only [lineFrom, lineTo, lineText]
      rw [List.take_succ, e1, List.map_append, List.sum_append, e2]
      simp only [List.map_cons, List.map_nil, List.sum_cons, List.sum_nil]
      omega

theorem lineTo_lt_lineFrom {lines : List Line} {i j : Nat} (h1 : 1 ≤ i)
    (hij : i < j) (hj : j ≤ lines.length) :
    lineTo lines i < lineFrom lines j := by
  have hs : lineFrom lines (i + 1) = lineTo lines i + 1 :=
    lineFrom_succ_eq h1 (by omega)
  have hm : lineFrom lines (i + 1) ≤ lineFrom lines j := lineFrom_mono (by omega)
  omega

theorem mem_buildAux_span (lines : List Line) (sel : List SelRange)
    (folded : Nat → Nat → Bool) :
    ∀ (idxs : List Nat) (st : BuildState) (d : Deco),
      d ∈ buildAux lines sel folded idxs st →
      ∃ i ∈ idxs, lineFrom lines i ≤ d.fromPos ∧ d.fromPos ≤ d.toPos ∧
        d.toPos ≤ lineTo lines i := by
  intro idxs
  induction idxs with
  | nil => intro st d hd; exact absurd hd (by simp [buildAux])
  | cons i rest ih =>
      intro st d hd
      simp only [buildAux] at hd
      rcases List.mem_append.mp hd with h | h
      · exact ⟨i, List.mem_cons_self _ _, emitLine_span lines sel folded i st d h⟩
      · obtain ⟨j, hj, hspan⟩ := ih _ d h
        exact ⟨j, List.mem_cons_of_mem _ hj, hspan⟩

theorem buildAux_pairwiseQ (lines : List Line) (sel : List SelRange)
    (folded : Nat → Nat → Bool) :
    ∀ (idxs : List Nat) (st : BuildState),
      idxs.Pairwise (· < ·) → (∀ i ∈ idxs, 1 ≤ i ∧ i ≤ lines.length) →
      (buildAux lines sel folded idxs st).Pairwise Qrel := by
  intro idxs
  induction idxs with
  | nil => intro st _ _; exact List.Pairwise.nil
  | cons i rest ih =>
      intro st hp hb
      simp only [buildAux]
      refine List.pairwise_append.mpr
        ⟨emitLine_pairwiseQ lines sel folded i st,
         ih _ (List.pairwise_cons.mp hp).2
           (fun j hj => hb j (List.mem_cons_of_mem _ hj)), ?_⟩
      intro a ha b hb2
      have hspa := emitLine_span lines sel folded i st a ha
      obtain ⟨j, hj, hspb⟩ := mem_buildAux_span lines sel folded _ _ b hb2
      have hij : i < j := (List.pairwise_cons.mp hp).1 j hj
      have hi1 : 1 ≤ i := (hb i (List.mem_cons_self _ _)).1
      have hjn : j ≤ lines.length := (hb j (List.mem_cons_of_mem _ hj)).2
      have hsep : lineTo lines i < lineFrom lines j := lineTo_lt_lineFrom hi1 hij hjn
      intro habs
      omega

theorem insertDeco_mem (d : Deco) (l : List Deco) (x : Deco) :
    x ∈ insertDeco d l ↔ x = d ∨ x ∈ l := by
  induction l with
  | nil => simp [insertDeco]
  | cons e es ih =>
      rw [insertDeco]
      by_cases hle : e.fromPos ≤ d.fromPos
      · rw [if_pos hle]
        simp only [List.mem_cons, ih]
        tauto
      · rw [if_neg hle]
        simp [List.mem_cons]

theorem insertDeco_pairwiseS (x : Deco) (acc : List Deco)
    (hS : acc.Pairwise Srel) (hQ : ∀ a ∈ acc, Qrel a x) :
    (insertDeco x acc).Pairwise Srel := by
  induction acc with
  | nil => simp [insertDeco]
  | cons e es ih =>
      rw [insertDeco]
      obtain ⟨he, hes⟩ := List.pairwise_cons.mp hS
      by_cases hle : e.fromPos ≤ x.fromPos
      · rw [if_pos hle]
        refine List.pairwise_cons.mpr
          ⟨?_, ih hes (fun a ha => hQ a (List.mem_cons_of_mem _ ha))⟩
        intro b hb
        rcases (insertDeco_mem x es b).mp hb with rfl | hb
        · exact ⟨hle, hQ e (List.mem_cons_self _ _)⟩
        · exact he b hb
      · rw [if_neg hle]
        have hlt : x.fromPos < e.fromPos := by omega
        refine List.pairwise_cons.mpr ⟨?_, hS⟩
        intro b hb
        rcases List.mem_cons.mp hb with rfl | hb
        · refine ⟨by omega, ?_⟩
          intro habs
          omega
        · obtain ⟨hb21, hb22⟩ := he b hb
          refine ⟨by omega, ?_⟩
          intro habs
          omega

theorem sortFoldl_pairwiseS :
    ∀ (rest acc : List Deco), acc.Pairwise Srel → rest.Pairwise Qrel →
      (∀ a ∈ acc, ∀ x ∈ rest, Qrel a x) →
      (rest.foldl (fun ac d => insertDeco d ac) acc).Pairwise Srel := by
  intro rest
  induction rest with
  | nil => intro acc h _ _; exact h
  | cons x rest ih =>
      intro acc hS hQ hCross
      simp only [List.foldl_cons]
      apply ih
      · exact insertDeco_pairwiseS x acc hS
          (fun a ha => hCross a ha x (List.mem_cons_self _ _))
      · exact (List.pairwise_cons.mp hQ).2
      · intro a ha y hy
        rcases (insertDeco_mem x acc a).mp ha with rfl | ha
        · exact (List.pairwise_cons.mp hQ).1 y hy
        · exact hCross a ha y (List.mem_cons_of_mem _ hy)

theorem sortDecos_pairwiseS (l : List Deco) (h : l.Pairwise Qrel) :
    (sortDecos l).Pairwise Srel :=
  sortFoldl_pairwiseS l [] List.Pairwise.nil h (by simp)

theorem mem_sortFoldl :
    ∀ (rest acc : List Deco) (x : Deco),
      x ∈ rest.foldl (fun ac d => insertDeco d ac) acc ↔ x ∈ acc ∨ x ∈ rest := by
  intro rest
  induction rest with
  | nil => intro acc x; simp
  | cons d rest ih =>
      intro acc x
      simp only [List.foldl_cons, ih, insertDeco_mem, List.mem_cons]
      tauto

theorem mem_sortDecos (l : List Deco) (x : Deco) : x ∈ sortDecos l ↔ x ∈ l := by
  rw [sortDecos, mem_sortFoldl]
  simp

theorem buildDecoList_pairwiseQ (lines : List Line) (sel : List SelRange)
    (folded : Nat → Nat → Bool) :
    (buildDecoList lines sel folded).Pairwise Qrel := by
  apply buildAux_pairwiseQ
  · exact List.pairwise_lt_range' 1 lines.length
  · intro i hi
    have := List.mem_range'_1.mp hi
    omega

/-- C9: the decoration list handed to the host is sorted by start offset
ascending, with ties sorted by end offset ascending, and two instructions
sharing a start offset never overlap unless one of them is a zero-width
insert. -/
theorem build_instructions_sorted (lines : List Line) (sel : List SelRange)
    (folded : Nat → Nat → Bool) :
    (buildDecorations lines sel folded).Pairwise
      (fun a b => a.fromPos ≤ b.fromPos ∧
        (a.fromPos = b.fromPos →
          a.toPos ≤ b.toPos ∧ (a.toPos = a.fromPos ∨ b.toPos = b.fromPos))) := by
  have hQ := buildDecoList_pairwiseQ lines sel folded
  have hS := sortDecos_pairwiseS _ hQ
  refine hS.imp_of_mem ?_
  intro a b ha hb hr
  have hbmem : b ∈ buildDecoList lines sel folded := (mem_sortDecos _ b).mp hb
  obtain ⟨j, _, hspanb⟩ := mem_buildAux_span lines sel folded _ _ b hbmem
  refine ⟨hr.1, fun heq => ?_⟩
  have hz := hr.2 heq
  refine ⟨?_, Or.inl hz⟩
  rw [hz, heq]
  exact hspanb.2.1

theorem scanLine_congr (i : Nat) (l1 l2 : Line) (s : ScanState)
    (h1 : isOpen l1 = isOpen l2) (h2 : isClose l1 = isClose l2) :
    scanLine i l1 s = scanLine i l2 s := by
  unfold scanLine
  rw [h1, h2]

theorem scanLinesFrom_congr :
    ∀ (ls1 ls2 : List Line) (k : Nat) (s : ScanState), ls1.length = ls2.length →
      (∀ n, isOpen (ls1.getD n []) = isOpen (ls2.getD n []) ∧
        isClose (ls1.getD n []) = isClose (ls2.getD n [])) →
      scanLinesFrom k ls1 s = scanLinesFrom k ls2 s := by
  intro ls1
  induction ls1 with
  | nil =>
      intro ls2 k s hlen _
      have : ls2 = [] := List.eq_nil_of_length_eq_zero (by simpa using hlen.symm)
      subst this
      rfl
  | cons a ls1 ih =>
      intro ls2 k s hlen hcls
      match ls2 with
      | [] => simp at hlen
      | b :: ls2 =>
          simp only [scanLinesFrom]
          have h0 := hcls 0
          simp only [List.getD_cons_zero] at h0
          rw [scanLine_congr k a b s h0.1 h0.2]
          apply ih
          · simpa using hlen
          · intro n
            have := hcls (n + 1)
            simpa only [List.getD_cons_succ] using this

theorem whitespace_ne_markers (c : Char) (hc : c.isWhitespace = true) :
    ¬ ('|' : Char) = c ∧ ¬ ('<' : Char) = c := by
  have h4 : ((c = ' ' ∨ c = '\t') ∨ c = '\r') ∨ c = '\n' := by
    simpa [Char.isWhitespace] using hc
  rcases h4 with ((rfl | rfl) | rfl) | rfl <;> exact ⟨by decide, by decide⟩

theorem isOpen_cons_false {c : Char} {l : Line} (h : ¬ ('|' : Char) = c) :
    isOpen (c :: l) = false := by
  simp only [isOpen, START_TAG, startsWith, decide_eq_false h, Bool.false_and]

theorem isClose_cons_false {c : Char} {l : Line} (h : ¬ ('<' : Char) = c) :
    isClose (c :: l) = false := by
  simp only [isClose, END_TAG, startsWith, decide_eq_false h, Bool.false_and]

/-- C8 (amended): the pairing scan classifies each line by its raw
(untrimmed) prefix, so its output is invariant under prepending whitespace
only to lines that are not themselves marker lines; such a line stays
non-marker and the scan is unchanged. -/
theorem scanDoc_ws_on_plain_invariant (lines : List Line) (i : Nat) (ws : Line)
    (hi : 1 ≤ i)
    (hws : ∀ c ∈ ws, c.isWhitespace = true)
    (ho : isOpen (lineText lines i) = false)
    (hc : isClose (lineText lines i) = false) :
    scanDoc (lines.set (i - 1) (ws ++ lineText lines i)) = scanDoc lines := by
  unfold scanDoc
  apply scanLinesFrom_congr
  · simp
  · intro n
    by_cases hn : i - 1 = n
    · subst hn
      by_cases hlen : i - 1 < lines.length
      · have hset : (lines.set (i - 1) (ws ++ lineText lines i)).getD (i - 1) [] =
            ws ++ lineText lines i := by
          rw [List.getD_eq_getElem?_getD, List.getElem?_set, if_pos rfl, if_pos hlen]
          rfl
        have horig : lines.getD (i - 1) [] = lineText lines i := by
          match i, hi with
          | i + 1, _ => simp [lineText]
        rw [hset, horig]
        match ws with
        | [] => simp
        | c :: ws' =>
            have hwc := whitespace_ne_markers c (hws c (List.mem_cons_self _ _))
            rw [List.cons_append, isOpen_cons_false hwc.1, isClose_cons_false hwc.2,
              ho, hc]
            exact ⟨rfl, rfl⟩
      · rw [List.set_eq_of_length_le (by omega)]
        exact ⟨rfl, rfl⟩
    · have : (lines.set (i - 1) (ws ++ lineText lines i)).getD n [] = lines.getD n [] := by
        rw [List.getD_eq_getElem?_getD, List.getElem?_set, if_neg hn,
          ← List.getD_eq_getElem?_getD]
      rw [this]
      exact ⟨rfl, rfl⟩

/-- C8 counterexample: `[" |> A","<|"]` is `["|> A","<|"]` with one space
prepended to the marker line, yet the pairing scan accepts the block
`(1,2)` for the latter and nothing for the former, and line 2's depth
drops from 1 to 0 — scanner output is *not* invariant under leading
whitespace on marker lines. -/
theorem scanner_ws_counterexample :
    exWs = exPlain.set 0 (' ' :: lineText exPlain 1) ∧
      (scanDoc exPlain).validRanges = [⟨1, 2⟩] ∧
      (scanDoc exWs).validRanges = [] ∧
      depthByLine exPlain 2 = 1 ∧ depthByLine exWs 2 = 0 := by
  refine ⟨by decide, by decide, by decide, by decide, by decide⟩

/-- Witness for C8 (amended): prepending two spaces to the plain line
`"X"` of the nested example leaves the scan unchanged. -/
theorem scanDoc_ws_on_plain_invariant_witness :
    (∀ c ∈ (' ' :: [' ']), c.isWhitespace = true) ∧
      isOpen (lineText exNested 3) = false ∧ isClose (lineText exNested 3) = false ∧
      scanDoc (exNested.set 2 ([' ', ' '] ++ lineText exNested 3)) = scanDoc exNested :=
  ⟨by decide, by decide, by decide,
    scanDoc_ws_on_plain_invariant exNested 3 [' ', ' '] (by decide) (by decide)
      (by decide) (by decide)⟩

theorem scanLinesFrom_append :
    ∀ (l1 l2 : List Line) (k : Nat) (s : ScanState),
      scanLinesFrom k (l1 ++ l2) s =
        scanLinesFrom (k + l1.length) l2 (scanLinesFrom k l1 s) := by
  intro l1
  induction l1 with
  | nil => intro l2 k s; simp [scanLinesFrom]
  | cons a l1 ih =>
      intro l2 k s
      rw [List.cons_append]
      simp only [scanLinesFrom, List.length_cons]
      rw [ih]
      congr 1
      omega

theorem stateThrough_append (lines : List Line) (sel : List SelRange)
    (folded : Nat → Nat → Bool) :
    ∀ (l1 l2 : List Nat) (st : BuildState),
      stateThrough lines sel folded (l1 ++ l2) st =
        stateThrough lines sel folded l2 (stateThrough lines sel folded l1 st) := by
  intro l1
  induction l1 with
  | nil => intro l2 st; rfl
  | cons a l1 ih =>
      intro l2 st
      rw [List.cons_append]
      simp only [stateThrough]
      rw [ih]

theorem lineText_mem {lines : List Line} {k : Nat} (h : k < lines.length) :
    lineText lines (k + 1) ∈ lines := by
  simp only [lineText, List.getD_eq_getElem?_getD, List.getElem?_eq_getElem h,
    Option.getD_some]
  exact List.getElem_mem h

theorem lineText_out {lines : List Line} {k : Nat} (h : lines.length ≤ k) :
    lineText lines (k + 1) = [] := by
  simp [lineText, List.getD_eq_getElem?_getD, List.getElem?_eq_none (by simpa using h)]

theorem scanPrefix_succ (lines : List Line) (k : Nat) :
    scanPrefix lines (k + 1) =
      scanLine (k + 1) (lineText lines (k + 1)) (scanPrefix lines k) := by
  by_cases h : k < lines.length
  · unfold scanPrefix
    rw [List.take_succ, List.getElem?_eq_getElem h]
    have e1 : (some lines[k]).toList = [lines[k]] := rfl
    rw [e1, scanLinesFrom_append]
    have e2 : (lines.take k).length = k := by
      simp [List.length_take]
      omega
    rw [e2]
    have e3 : lineText lines (k + 1) = lines[k] := by
      simp [lineText, List.getD_eq_getElem?_getD, List.getElem?_eq_getElem h]
    rw [e3]
    have e4 : 1 + k = k + 1 := by omega
    rw [e4]
    simp only [scanLinesFrom]
  · have h1 : lines.take (k + 1) = lines.take k := by
      rw [List.take_of_length_le (by omega), List.take_of_length_le (by omega)]
    have h2 : lineText lines (k + 1) = [] := lineText_out (by omega)
    unfold scanPrefix
    rw [h1, h2]
    rfl

theorem stateAfter_succ (lines : List Line) (sel : List SelRange)
    (folded : Nat → Nat → Bool) (k : Nat) :
    stateAfter lines sel folded (k + 1) =
      (emitLine lines sel folded (k + 1) (stateAfter lines sel folded k)).2 := by
  unfold stateAfter
  have h1 : List.range' 1 (k + 1) = List.range' 1 k ++ [1 + 1 * k] := List.range'_concat 1 k
  rw [h1, stateThrough_append]
  have h2 : 1 + 1 * k = k + 1 := by omega
  rw [h2]
  rfl

theorem mem_buildAux_range' (lines : List Line) (sel : List SelRange)
    (folded : Nat → Nat → Bool) :
    ∀ (n0 k : Nat) (d : Deco),
      d ∈ buildAux lines sel folded (List.range' (k + 1) n0)
        (stateAfter lines sel folded k) →
      ∃ i, k + 1 ≤ i ∧ i ≤ k + n0 ∧
        d ∈ (emitLine lines sel folded i (stateAfter lines sel folded (i - 1))).1 := by
  intro n0
  induction n0 with
  | zero => intro k d hd; exact absurd hd (by simp [buildAux])
  | succ n0 ih =>
      intro k d hd
      rw [List.range'_succ] at hd
      simp only [buildAux] at hd
      rcases List.mem_append.mp hd with h | h
      · refine ⟨k + 1, le_refl _, by omega, ?_⟩
        simpa using h
      · rw [← stateAfter_succ] at h
        obtain ⟨i, h1, h2, h3⟩ := ih (k + 1) d h
        exact ⟨i, by omega, by omega, h3⟩

theorem mem_buildDecoList (lines : List Line) (sel : List SelRange)
    (folded : Nat → Nat → Bool) (d : Deco)
    (hd : d ∈ buildDecoList lines sel folded) :
    ∃ i, 1 ≤ i ∧ i ≤ lines.length ∧
      d ∈ (emitLine lines sel folded i (stateAfter lines sel folded (i - 1))).1 := by
  have h0 : stateAfter lines sel folded 0 = initState := rfl
  rw [buildDecoList, ← h0] at hd
  simpa using mem_buildAux_range' lines sel folded lines.length 0 d hd

theorem findMatchAux_bounds :
    ∀ (ls : List Line) (m st c' : Nat),
      findMatchAux (m + 1) st ls = some c' → m + 1 ≤ c' ∧ c' ≤ m + ls.length := by
  intro ls
  induction ls with
  | nil => intro m st c' h; simp [findMatchAux] at h
  | cons l ls ih =>
      intro m st c' h
      rw [findMatchAux] at h
      split at h
      · have := ih (m + 1) (st + 1) c' h
        simp only [List.length_cons]
        omega
      · split at h
        · split at h
          · have : c' = m + 1 := by
              have := Option.some_inj.mp h
              omega
            simp only [List.length_cons]
            omega
          · have := ih (m + 1) (st - 1) c' h
            simp only [List.length_cons]
            omega
        · have := ih (m + 1) st c' h
          simp only [List.length_cons]
          omega

theorem scanLinesFrom_ranges_ge :
    ∀ (ls : List Line) (k : Nat) (s : ScanState),
      ∀ r ∈ (scanLinesFrom k ls s).validRanges, r ∈ s.validRanges ∨ k ≤ r.endLine := by
  intro ls
  induction ls with
  | nil => intro k s r hr; exact Or.inl hr
  | cons l ls ih =>
      intro k s r hr
      simp only [scanLinesFrom] at hr
      rcases ih (k + 1) (scanLine k l s) r hr with h | h
      · unfold scanLine at h
        split at h
        · exact Or.inl h
        · split at h
          · split at h
            · exact Or.inl h
            · simp only [List.mem_append, List.mem_singleton] at h
              rcases h with h | rfl
              · exact Or.inl h
              · exact Or.inr (by simp)
          · exact Or.inl h
      · exact Or.inr (by omega)

theorem scanPrefix_inv (lines : List Line) (k : Nat) (hk : k ≤ lines.length) :
    ScanInv (scanPrefix lines k) k := by
  have := scanInv_run (lines.take k) 0 ⟨[], []⟩ scanInv_init
  have hlen : (lines.take k).length = k := by
    simp [List.length_take]
    omega
  rw [hlen] at this
  simpa [scanPrefix] using this

/-- On documents without leading whitespace and without fence lines, the
decoration pass's `runningStack` agrees with the pairing scan's stack
height, and `inCodeBlock` stays false. -/
theorem stateAfter_stack_eq (lines : List Line) (sel : List SelRange)
    (folded : Nat → Nat → Bool)
    (hws : ∀ l ∈ lines, trimStart l = l)
    (hnf : ∀ l ∈ lines, isFenceLine l = false) :
    ∀ k, (stateAfter lines sel folded k).runningStack =
        (scanPrefix lines k).openStack.length ∧
      (stateAfter lines sel folded k).inCode = false := by
  intro k
  induction k with
  | zero => exact ⟨rfl, rfl⟩
  | succ k ih =>
      rw [stateAfter_succ, scanPrefix_succ]
      have hline : trimStart (lineText lines (k + 1)) = lineText lines (k + 1) ∧
          isFenceLine (lineText lines (k + 1)) = false := by
        by_cases hk : k < lines.length
        · have hm := lineText_mem hk
          exact ⟨hws _ hm, hnf _ hm⟩
        · rw [lineText_out (by omega)]
          exact ⟨rfl, rfl⟩
      obtain ⟨hts, hfl⟩ := hline
      have hf2 : isFenceLine (trimStart (lineText lines (k + 1))) = false := by
        rw [hts]; exact hfl
      have hcode := ih.2
      by_cases ho : isOpen (lineText lines (k + 1)) = true
      · have ho2 : isOpen (trimStart (lineText lines (k + 1))) = true := by
          rw [hts]; exact ho
        have hcl : isClose (lineText lines (k + 1)) = false := isOpen_not_isClose ho
        have hcl2 : isClose (trimStart (lineText lines (k + 1))) = false := by
          rw [hts]; exact hcl
        constructor
        · simp only [emitLine, hf2, hcode, ho2, hcl2, scanLine, ho, Bool.false_eq_true,
            if_false, if_true]
          simp [ih.1]
        · simp [emitLine, hf2, hcode, ho2, hcl2]
      · have ho0 : isOpen (lineText lines (k + 1)) = false := by simpa using ho
        have ho2 : isOpen (trimStart (lineText lines (k + 1))) = false := by
          rw [hts]; exact ho0
        by_cases hc : isClose (lineText lines (k + 1)) = true
        · have hc2 : isClose (trimStart (lineText lines (k + 1))) = true := by
            rw [hts]; exact hc
          constructor
          · simp only [emitLine, hf2, hcode, ho2, hc2, scanLine, ho0, hc,
              Bool.false_eq_true, if_false, if_true]
            match hstk : (scanPrefix lines k).openStack with
            | [] =>
                have hrs : (stateAfter lines sel folded k).runningStack = 0 := by
                  rw [ih.1, hstk]; rfl
                simp [hrs, hstk]
            | t :: rest =>
                have hrs : (stateAfter lines sel folded k).runningStack = rest.length + 1 := by
                  rw [ih.1, hstk]; rfl
                simp [hrs, hstk]
          · simp [emitLine, hf2, hcode, ho2, hc2]
        · have hc0 : isClose (lineText lines (k + 1)) = false := by simpa using hc
          have hc2 : isClose (trimStart (lineText lines (k + 1))) = false := by
            rw [hts]; exact hc0
          constructor
          · simp only [emitLine, hf2, hcode, ho2, hc2, scanLine, ho0, hc0,
              Bool.false_eq_true, if_false]
            exact ih.1
          · simp [emitLine, hf2, hcode, ho2, hc2]

/-- On documents without leading whitespace, a successful
`findMatchingEndLine`-style search that starts with a counter not above
the scanner's stack height ends at a line where the scanner's stack is
non-empty. -/
theorem findMatchAux_stack (lines : List Line)
    (hws : ∀ l ∈ lines, trimStart l = l) :
    ∀ (ls : List Line) (m st c' : Nat),
      ls = lines.drop m → 1 ≤ st →
      st ≤ (scanPrefix lines m).openStack.length →
      findMatchAux (m + 1) st ls = some c' →
      1 ≤ (scanPrefix lines (c' - 1)).openStack.length := by
  intro ls
  induction ls with
  | nil => intro m st c' _ _ _ h; simp [findMatchAux] at h
  | cons l ls ih =>
      intro m st c' hdrop h1 h2 hfind
      obtain ⟨hline, hls⟩ := lineText_of_drop (j := m + 1)
        (by omega) (by simpa using hdrop.symm)
      have hmlt : m < lines.length := by
        by_contra hcon
        have hnil : lines.drop m = [] := List.drop_eq_nil_iff.mpr (by omega)
        rw [hnil] at hdrop
        exact absurd hdrop (by simp)
      have hmem : l ∈ lines := by
        rw [← hline]
        exact lineText_mem hmlt
      have hts : trimStart l = l := hws l hmem
      have hsp := scanPrefix_succ lines m
      rw [hline] at hsp
      rw [findMatchAux] at hfind
      simp only [hts] at hfind
      by_cases ho : isOpen l = true
      · rw [if_pos ho] at hfind
        apply ih (m + 1) (st + 1) c' hls (by omega) ?_ hfind
        rw [hsp]
        simp only [scanLine, ho, if_true, List.length_cons]
        omega
      · rw [if_neg ho] at hfind
        have ho0 : isOpen l = false := by simpa using ho
        by_cases hc : isClose l = true
        · rw [if_pos hc] at hfind
          by_cases hst1 : st = 1
          · rw [if_pos hst1] at hfind
            have hceq : c' = m + 1 := (Option.some_inj.mp hfind).symm
            subst hceq
            simp only [Nat.add_sub_cancel]
            omega
          · rw [if_neg hst1] at hfind
            apply ih (m + 1) (st - 1) c' hls (by omega) ?_ hfind
            rw [hsp]
            match hstk : (scanPrefix lines m).openStack with
            | [] =>
                rw [hstk] at h2
                simp at h2
                omega
            | t :: rest =>
                rw [hstk] at h2
                simp only [List.length_cons] at h2
                simp only [scanLine, ho0, Bool.false_eq_true, if_false, hc, if_true, hstk]
                omega
        · rw [if_neg hc] at hfind
          have hc0 : isClose l = false := by simpa using hc
          apply ih (m + 1) st c' hls h1 ?_ hfind
          rw [hsp]
          simp only [scanLine, ho0, hc0, Bool.false_eq_true, if_false]
          exact h2

theorem lineTo_inj {lines : List Line} {i j : Nat} (hi1 : 1 ≤ i)
    (hin : i ≤ lines.length) (hj1 : 1 ≤ j) (hjn : j ≤ lines.length)
    (h : lineTo lines i = lineTo lines j) : i = j := by
  rcases Nat.lt_trichotomy i j with hlt | heq | hgt
  · have h1 : lineTo lines i < lineFrom lines j := lineTo_lt_lineFrom hi1 hlt hjn
    have h2 : lineFrom lines j ≤ lineTo lines j := by unfold lineTo; omega
    omega
  · exact heq
  · have h1 : lineTo lines j < lineFrom lines i := lineTo_lt_lineFrom hj1 hgt hin
    have h2 : lineFrom lines i ≤ lineTo lines i := by unfold lineTo; omega
    omega

theorem span_disjoint {lines : List Line} {i c : Nat} {d : Deco}
    (hi1 : 1 ≤ i) (hin : i ≤ lines.length) (hc1 : 1 ≤ c) (hcn : c ≤ lines.length)
    (hne : i ≠ c)
    (hspan : lineFrom lines i ≤ d.fromPos ∧ d.fromPos ≤ d.toPos ∧ d.toPos ≤ lineTo lines i)
    (hwithin : lineFrom lines c ≤ d.fromPos ∧ d.toPos ≤ lineTo lines c) : False := by
  rcases Nat.lt_or_ge i c with hlt | hge
  · have hsep := lineTo_lt_lineFrom hi1 hlt hcn
    omega
  · have hgt : c < i := by omega
    have hsep := lineTo_lt_lineFrom hc1 hgt hin
    omega

/-- C7 (amended): on documents whose lines carry no leading whitespace and
contain no fence lines (so the pairing scan and the decoration pass
classify lines identically), a `CloseToggle` line `c` reached while the
scanner's open stack is empty produces no Toggle block, receives no
end-tag replacement instruction over its marker characters, and no
triangle affordance (toggle or fence) binds a fold range ending at `c`'s
end-of-line offset. -/
theorem orphan_close_inert (lines : List Line) (sel : List SelRange)
    (folded : Nat → Nat → Bool) (c : Nat)
    (hws : ∀ l ∈ lines, trimStart l = l)
    (hnf : ∀ l ∈ lines, isFenceLine l = false)
    (hc1 : 1 ≤ c)
    (hcl : isClose (lineText lines c) = true)
    (hstack : (scanPrefix lines (c - 1)).openStack = []) :
    (∀ r ∈ (scanDoc lines).validRanges, r.endLine ≠ c) ∧
    (∀ d ∈ buildDecorations lines sel folded,
      (∀ p, d.kind ≠ DecoKind.endLine p) ∨
        ¬ (lineFrom lines c ≤ d.fromPos ∧ d.toPos ≤ lineTo lines c)) ∧
    (∀ d ∈ buildDecorations lines sel folded, ∀ f fs fe inv,
      (d.kind = DecoKind.startTriangle f fs fe inv ∨ d.kind = DecoKind.fenceTriangle f fs fe) →
      fe ≠ lineTo lines c) := by
  have hcn : c ≤ lines.length := by
    by_contra hcon
    match c, hc1 with
    | c + 1, _ =>
        rw [lineText_out (by omega)] at hcl
        exact absurd hcl (by decide)
  refine ⟨?_, ?_, ?_⟩
  · -- (a) no accepted block ends at line c
    intro r hr
    have hlt : c - 1 < lines.length := by omega
    have hgc : lines[c - 1] = lineText lines c := by
      match c, hc1 with
      | c + 1, _ =>
          have hlt2 : c < lines.length := by omega
          simp [lineText, List.getD_eq_getElem?_getD, List.getElem?_eq_getElem hlt2]
    have hdrop : lines.drop (c - 1) = lineText lines c :: lines.drop c := by
      rw [List.drop_eq_getElem_cons hlt, hgc]
      have h2 : c - 1 + 1 = c := by omega
      rw [h2]
    have hdoc : scanDoc lines =
        scanLinesFrom (c + 1) (lines.drop c)
          (scanLine c (lineText lines c) (scanPrefix lines (c - 1))) := by
      conv_lhs => rw [scanDoc, ← List.take_append_drop (c - 1) lines]
      rw [scanLinesFrom_append]
      have hlen : (lines.take (c - 1)).length = c - 1 := by
        simp [List.length_take]
        omega
      rw [hlen, hdrop]
      have h1 : 1 + (c - 1) = c := by omega
      rw [h1]
      rfl
    have hnoop : scanLine c (lineText lines c) (scanPrefix lines (c - 1)) =
        scanPrefix lines (c - 1) := by
      simp only [scanLine, isClose_not_isOpen hcl, Bool.false_eq_true, if_false, hcl,
        if_true, hstack]
    rw [hdoc, hnoop] at hr
    rcases scanLinesFrom_ranges_ge (lines.drop c) (c + 1) (scanPrefix lines (c - 1)) r hr
      with h | h
    · have hinv := scanPrefix_inv lines (c - 1) (by omega)
      have := hinv.ranges_bounds r h
      omega
    · omega
  · -- (b) no end-tag replacement over line c
    intro d hd
    by_cases hkind : ∃ p, d.kind = DecoKind.endLine p
    · obtain ⟨p, hk⟩ := hkind
      right
      intro hwithin
      have hdm : d ∈ buildDecoList lines sel folded := (mem_sortDecos _ d).mp hd
      obtain ⟨i, hi1, hin, hd2⟩ := mem_buildDecoList lines sel folded d hdm
      have hspan := emitLine_span lines sel folded i _ d hd2
      rcases mem_emitLine_cases hd2 with h | ⟨_, h⟩ | ⟨_, _, _, h | h⟩ | ⟨_, _, hcl2, h⟩
      · rcases mem_bgDecos_spec h with ⟨_, _, hbg⟩ | ⟨hk2, _⟩
        · rw [hk] at hbg; simp [isBgKind] at hbg
        · rw [hk] at hk2; simp at hk2
      · obtain ⟨_, _, _, _, _, _, _, hk2⟩ := mem_fenceDecos_spec h
        rw [hk] at hk2; simp at hk2
      · obtain ⟨_, _, _, _, _, _, hk2⟩ := mem_startDecos_spec h
        rw [hk] at hk2; simp at hk2
      · obtain ⟨_, _, _, _, hk2⟩ := mem_copyDecos_spec h
        rw [hk] at hk2; simp at hk2
      · -- the end-widget branch: line i must be c, but then the stack check fails
        obtain ⟨horph, _, _, _⟩ := mem_endDecos_spec h
        by_cases hic : i = c
        · subst hic
          have hcorr := stateAfter_stack_eq lines sel folded hws hnf (i - 1)
          rw [hstack] at hcorr
          simp only [List.length_nil] at hcorr
          rw [hcorr.1] at horph
          simp at horph
        · exact span_disjoint hi1 hin hc1 hcn hic hspan hwithin
    · left
      intro p hp
      exact hkind ⟨p, hp⟩
  · -- (c) no triangle fold range ends at line c
    intro d hd f fs fe inv hk
    have hdm : d ∈ buildDecoList lines sel folded := (mem_sortDecos _ d).mp hd
    obtain ⟨i, hi1, hin, hd2⟩ := mem_buildDecoList lines sel folded d hdm
    rcases mem_emitLine_cases hd2 with h | ⟨hfen, h⟩ | ⟨_, _, ho, h | h⟩ | ⟨_, _, _, h⟩
    · rcases mem_bgDecos_spec h with ⟨_, _, hbg⟩ | ⟨hk2, _⟩
      · rcases hk with hk | hk <;> (rw [hk] at hbg; simp [isBgKind] at hbg)
      · rcases hk with hk | hk <;> (rw [hk] at hk2; simp at hk2)
    · -- fence lines cannot occur
      have hmi : lineText lines i ∈ lines := by
        match i, hi1 with
        | i + 1, _ => exact lineText_mem (by omega)
      rw [hws _ hmi, hnf _ hmi] at hfen
      exact absurd hfen (by simp)
    · -- the start-triangle branch
      obtain ⟨_, _, j, hj, f2, inv2, hk2⟩ := mem_startDecos_spec h
      have hfej : fe = lineTo lines j := by
        rcases hk with hk | hk
        · rw [hk] at hk2
          simp only [DecoKind.startTriangle.injEq] at hk2
          exact hk2.2.2.1
        · rw [hk] at hk2
          simp at hk2
      intro hfec
      -- j satisfies: scanner stack before j is non-empty
      have hmi : lineText lines i ∈ lines := by
        match i, hi1 with
        | i + 1, _ => exact lineText_mem (by omega)
      have hoi : isOpen (lineText lines i) = true := by
        rw [← hws _ hmi]; exact ho
      have hpush : 1 ≤ (scanPrefix lines i).openStack.length := by
        have hsp := scanPrefix_succ lines (i - 1)
        have hi2 : i - 1 + 1 = i := by omega
        rw [hi2] at hsp
        rw [hsp]
        simp [scanLine, hoi]
      have hjstack := findMatchAux_stack lines hws (lines.drop i) i 1 j rfl
        (le_refl 1) hpush hj
      have hbounds := findMatchAux_bounds (lines.drop i) i 1 j hj
      have hjn : j ≤ lines.length := by
        have := hbounds.2
        simp only [List.length_drop] at this
        omega
      have hjc : j = c := lineTo_inj (by omega) hjn hc1 hcn (by rw [← hfej, hfec])
      rw [hjc, hstack] at hjstack
      simp at hjstack
    · obtain ⟨_, _, j2, _, hk2⟩ := mem_copyDecos_spec h
      rcases hk with hk | hk <;> (rw [hk] at hk2; simp at hk2)
    · obtain ⟨_, _, _, hk2⟩ := mem_endDecos_spec h
      rcases hk with hk | hk <;> (rw [hk] at hk2; simp at hk2)

/-- C7 counterexample: in `[" |> A","<|"]` the close on line 2 arrives
while the pairing scan's stack is empty (the leading space keeps line 1
out of the untrimmed scan), so no block is produced — yet the decoration
pass (which trims) emits a replacement `(6,8)` over the close marker and a
triangle whose fold range ends at the close line's end offset 8, so the
close is neither rendered literally nor hiding-free. -/
theorem orphan_close_counterexample :
    isClose (lineText exWs 2) = true ∧
      (scanPrefix exWs 1).openStack = [] ∧
      (⟨6, 8, DecoKind.endLine 6⟩ : Deco) ∈ buildDecorations exWs [] (fun _ _ => false) ∧
      (lineFrom exWs 2 ≤ 6 ∧ 8 ≤ lineTo exWs 2) ∧
      (⟨1, 4, DecoKind.startTriangle false 5 8 false⟩ : Deco) ∈
        buildDecorations exWs [] (fun _ _ => false) ∧
      8 = lineTo exWs 2 := by
  refine ⟨by decide, by decide, by decide, ⟨by decide, by decide⟩, by decide, by decide⟩

/-- Witness for C7 (amended) on `["<|","x"]`: the close on line 1 is an
orphan and yields no block. -/
theorem orphan_close_inert_witness :
    ((∀ l ∈ exOrphan, trimStart l = l) ∧ (∀ l ∈ exOrphan, isFenceLine l = false) ∧
      isClose (lineText exOrphan 1) = true ∧ (scanPrefix exOrphan 0).openStack = []) ∧
      (∀ r ∈ (scanDoc exOrphan).validRanges, r.endLine ≠ 1) :=
  ⟨⟨by decide, by decide, by decide, by decide⟩,
    (orphan_close_inert exOrphan [] (fun _ _ => false) 1 (by decide) (by decide)
      (by decide) (by decide) (by decide)).1⟩

/-- Witness for C1 on the nested example document. -/
theorem scan_blocks_well_nested_witness :
    (⟨2, 4⟩ : BlockRange) ∈ (scanDoc exNested).validRanges ∧
      ((⟨2, 4⟩ : BlockRange).startLine < (⟨2, 4⟩ : BlockRange).endLine ∧
        ((⟨2, 4⟩ : BlockRange) = ⟨1, 5⟩ ∨ laminar ⟨2, 4⟩ ⟨1, 5⟩)) :=
  ⟨by decide, scan_blocks_well_nested exNested ⟨2, 4⟩ ⟨1, 5⟩ (by decide) (by decide)⟩

end Toggle
